import Mathlib

/-!
fswalker: path normalisation, walk file names, the reporter front end and the text
encoding.

A shallow embedding of the Go sources fswalker.go and cmd/reporter/reporter.go. Go strings
are byte sequences and are modelled as lists of byte values. The standard library functions
the sources call (filepath.Clean, filepath.Match, time.Time.Format, strings.TrimSpace,
strings.ToLower) are modelled after Go's implementations for Unix; the collaborators of the
reporter that live in other files are parameters of the model.
-/

namespace FSWalker

/-! Paths: filepath.Clean and NormalizePath (fswalker.go). -/

/-- A Go string is a sequence of bytes; each byte is modelled by its numeric value. -/
abbrev GoString := List Nat

/-- The bytes of an ASCII literal. -/
def str (s : String) : GoString := s.toList.map Char.toNat

/-- The constant filepath.Separator on Unix, the byte of the slash character. -/
def Separator : Nat := 47

/-- The byte of the dot character. -/
def dot : Nat := 46

/-- The backtracking loop of filepath.Clean on a dot-dot element, after the first
decrement of out.w: while out.w > dotdot and out[out.w] is no separator, out.w
decreases. The argument is the current out.w, the result the final out.w. -/
def backtrack (out : GoString) (dotdot : Nat) : Nat → Nat
  | 0 => 0
  | w + 1 =>
    if w + 1 > dotdot ∧ out.getD (w + 1) 0 ≠ Separator then backtrack out dotdot w
    else w + 1

/-- The main loop of filepath.Clean. The lazy buffer is modelled by its contents
out (so out.w is out.length), the read index r by the unread remainder of the
path. Each iteration consumes at least one byte, so fuel equal to the length
of the remainder is enough. -/
def cleanLoop (rooted : Bool) : Nat → GoString → GoString → Nat → GoString
  | 0, _, out, _ => out
  | _ + 1, [], out, _ => out
  | fuel + 1, c :: rest, out, dotdot =>
    if c = Separator then
      -- empty path element
      cleanLoop rooted fuel rest out dotdot
    else if c = dot ∧ (rest = [] ∨ rest.head? = some Separator) then
      -- . element
      cleanLoop rooted fuel rest out dotdot
    else if c = dot ∧ rest.head? = some dot ∧
        (rest.tail = [] ∨ rest.tail.head? = some Separator) then
      -- .. element: remove to last separator
      if out.length > dotdot then
        -- can backtrack
        cleanLoop rooted fuel rest.tail
          (out.take (backtrack out dotdot (out.length - 1))) dotdot
      else if !rooted then
        -- cannot backtrack, but not rooted, so append .. element
        let out1 := (if out.length > 0 then out ++ [Separator] else out) ++ [dot, dot]
        cleanLoop rooted fuel rest.tail out1 out1.length
      else
        cleanLoop rooted fuel rest.tail out dotdot
    else
      -- real path element: add slash if needed, then copy the element
      let out1 :=
        if (rooted ∧ out.length ≠ 1) ∨ (!rooted ∧ out.length ≠ 0) then out ++ [Separator]
        else out
      cleanLoop rooted fuel ((c :: rest).dropWhile (· ≠ Separator))
        (out1 ++ (c :: rest).takeWhile (· ≠ Separator)) dotdot

/-- The function filepath.Clean on Unix (no volume names, one separator). -/
def Clean (path : GoString) : GoString :=
  if path = [] then [dot]
  else
    let rooted : Bool := path.head? = some Separator
    let out := if rooted then cleanLoop rooted path.length path.tail [Separator] 1
               else cleanLoop rooted path.length path [] 0
    -- Turn empty string into "."
    if out = [] then [dot] else out

/-- NormalizePath returns a cleaned up path with a path separator at the end if
it is a directory. The index expression p[len(p)-1] panics on an empty p, which
is the result none. -/
def NormalizePath (path : GoString) (isDir : Bool) : Option GoString :=
  let p := Clean path
  if isDir then
    match p.getLast? with
    | none => none
    | some c => if c ≠ Separator then some (p ++ [Separator]) else some p
  else some p

/-! Walk file names: time.Time, its layout tsFileFormat and WalkFilename (fswalker.go). -/

/-- A time zone of Go's time package: the offset (seconds east of UTC) in use before the
first transition, and the transitions (Unix time of the change, offset from then on) in
increasing order of time. -/
structure Location where
  first : Int
  tx : List (Int × Int)
deriving DecidableEq

/-- The zone offset in effect at a Unix time: that of the last transition at or before it,
or the first zone when there is none (Location.lookup). -/
def Location.lookup (l : Location) (sec : Int) : Int :=
  match (l.tx.filter (fun z => z.1 ≤ sec)).getLast? with
  | some z => z.2
  | none => l.first

/-- The zone time.FixedZone: one offset at all times. -/
def FixedZone (offset : Int) : Location := ⟨offset, []⟩

/-- The zone time.UTC. -/
def UTC : Location := FixedZone 0

/-- An instant of Go's time.Time: seconds since January 1, year 1 00:00:00 UTC,
nanoseconds within the second, and the location the time is shown in. -/
structure Time where
  sec : Int
  nsec : Nat
  loc : Location
deriving DecidableEq

/-- The constant unixToInternal: seconds from year 1 to the Unix epoch. -/
def unixToInternal : Int := 62135596800

/-- The Unix time of an instant (Time.unixSec). -/
def Time.unixSec (t : Time) : Int := t.sec - unixToInternal

/-- The time time.Unix(sec, 0).In(loc). -/
def Unix (sec : Int) (loc : Location) : Time := ⟨sec + unixToInternal, 0, loc⟩

/-- IsZero reports whether t is the zero time instant, January 1, year 1, 00:00:00 UTC. -/
def Time.IsZero (t : Time) : Bool := t.sec = 0 ∧ t.nsec = 0

/-- The zero value time.Time{}. -/
def Time.zero : Time := ⟨0, 0, UTC⟩

/-- Before reports whether the instant t is before u. -/
def Time.Before (t u : Time) : Bool := t.sec < u.sec ∨ (t.sec = u.sec ∧ t.nsec < u.nsec)

/-- The seconds of t on the local clock (Time.abs). Go adds a constant that makes the value
unsigned, a whole number of 400-year cycles before year 1; here the value counts from
year 1 and the divisions below are floor divisions. -/
def Time.abs (t : Time) : Int := t.sec + t.loc.lookup t.unixSec

/-- Reports whether the year is a leap year (isLeap). -/
def isLeap (year : Int) : Bool := year % 4 = 0 ∧ (year % 100 ≠ 0 ∨ year % 400 = 0)

/-- The table daysBefore: the days of a non-leap year before the start of month m+1. -/
def daysBefore : List Nat := [0, 31, 59, 90, 120, 151, 181, 212, 243, 273, 304, 334, 365]

/-- The year and the day within the year of a count of days since January 1, year 1
(first half of absDate). -/
def yearDay (d0 : Int) : Int × Int :=
  -- Account for 400 year cycles.
  let n := d0 / 146097
  let y := 400 * n
  let d := d0 - 146097 * n
  -- Cut off 100-year cycles; the last one has an extra leap day.
  let n := d / 36524
  let n := n - n / 4
  let y := y + 100 * n
  let d := d - 36524 * n
  -- Cut off 4-year cycles.
  let n := d / 1461
  let y := y + 4 * n
  let d := d - 1461 * n
  -- Cut off years within a 4-year cycle; the last one is a leap year.
  let n := d / 365
  let n := n - n / 4
  let y := y + n
  let d := d - 365 * n
  (y + 1, d)

/-- The month and the day of the month of a day within a year (second half of absDate). -/
def monthDay (leap : Bool) (yday : Nat) : Nat × Nat :=
  if leap ∧ yday = 31 + 29 - 1 then
    -- Leap day.
    (2, 29)
  else
    -- After leap day; pretend it was not there.
    let day := if leap ∧ yday > 31 + 29 - 1 then yday - 1 else yday
    -- Estimate month on assumption that every month has 31 days.
    let month := day / 31
    let end_ := daysBefore.getD (month + 1) 0
    if day ≥ end_ then (month + 1 + 1, day - end_ + 1)
    else (month + 1, day - daysBefore.getD month 0 + 1)

/-- The year of t (Time.Year). -/
def Time.Year (t : Time) : Int := (yearDay (t.abs / 86400)).1

/-- The day of the year of t, counted from 0. -/
def Time.yday (t : Time) : Nat := (yearDay (t.abs / 86400)).2.toNat

/-- The month of t, January being 1 (Time.Month). -/
def Time.Month (t : Time) : Nat := (monthDay (isLeap t.Year) t.yday).1

/-- The day of the month of t (Time.Day). -/
def Time.Day (t : Time) : Nat := (monthDay (isLeap t.Year) t.yday).2

/-- The hour of t on the local clock (Time.Hour, from absClock). -/
def Time.Hour (t : Time) : Int := t.abs % 86400 / 3600

/-- The minute within the hour (Time.Minute, from absClock). -/
def Time.Minute (t : Time) : Int := t.abs % 86400 % 3600 / 60

/-- The second within the minute (Time.Second, from absClock). -/
def Time.Second (t : Time) : Int := t.abs % 86400 % 3600 % 60

/-- The decimal digits of u, most significant first; the fuel is the size of the digit
buffer of appendInt. -/
def decimal : Nat → Nat → GoString
  | 0, _ => []
  | fuel + 1, u => if u < 10 then [48 + u] else decimal fuel (u / 10) ++ [48 + u % 10]

/-- The helper appendInt of the time package: the decimal form of x, with a minus sign when
negative, padded with zeros to the width. -/
def appendInt (x : Int) (width : Nat) : GoString :=
  let digits := decimal 20 x.natAbs
  (if x < 0 then [45] else []) ++ List.replicate (width - digits.length) 48 ++ digits

/-- The method Time.Format for layouts made of the chunks "2006", "01", "02", "15", "04",
"05" and literal bytes, which are the chunks of tsFileFormat. -/
def Time.Format (t : Time) : GoString → GoString
  | 50 :: 48 :: 48 :: 54 :: rest => appendInt t.Year 4 ++ t.Format rest
  | 48 :: 49 :: rest => appendInt t.Month 2 ++ t.Format rest
  | 48 :: 50 :: rest => appendInt t.Day 2 ++ t.Format rest
  | 49 :: 53 :: rest => appendInt t.Hour 2 ++ t.Format rest
  | 48 :: 52 :: rest => appendInt t.Minute 2 ++ t.Format rest
  | 48 :: 53 :: rest => appendInt t.Second 2 ++ t.Format rest
  | c :: rest => c :: t.Format rest
  | [] => []

/-- The constant tsFileFormat is the time format used in file names. -/
def tsFileFormat : GoString := str "20060102-150405"

/-- WalkFilename returns the appropriate filename for a Walk for the given host and time.
If time is not provided, it returns a file pattern to glob by. -/
def WalkFilename (hostname : GoString) (t : Time) : GoString :=
  let hn := if hostname ≠ [] then hostname else str "*"
  let ts := if !t.IsZero then t.Format tsFileFormat else str "*"
  hn ++ str "-" ++ ts ++ str "-fswalker-state.pb"

/-- Go's comparison s < t of strings: byte-wise lexicographic order. -/
def strLt : GoString → GoString → Bool
  | [], [] => false
  | [], _ :: _ => true
  | _ :: _, [] => false
  | a :: s, b :: t => a < b || (a == b && strLt s t)

/-- Go's comparison s <= t of strings. -/
def strLe (s t : GoString) : Bool := !strLt t s

/-! Glob patterns: filepath.Match, which filepath.Glob applies to the names of a
directory. -/

/-- The result of matchChunk: the pattern is malformed (ErrBadPattern), the chunk does not
match, or it matches and leaves a remainder of the name. -/
inductive ChunkResult where
  | bad : ChunkResult
  | failed : ChunkResult
  | ok (rest : GoString) : ChunkResult
deriving DecidableEq

/-- The helper getEsc of filepath.Match: a possibly escaped character of a character
class and the rest of the chunk; none is ErrBadPattern. A byte stands for a rune. -/
def getEsc (chunk : GoString) : Option (Nat × GoString) :=
  match chunk with
  | [] => none
  | c :: rest =>
    if c = 45 ∨ c = 93 then none
    else
      match (if c = 92 then rest else chunk) with
      | [] => none
      | r :: nchunk => if nchunk = [] then none else some (r, nchunk)

/-- The loop of matchChunk that parses the ranges of a character class and tests the
rune r against them: the result is the flag match and the chunk after the class. -/
def classLoop (r : Nat) : Nat → GoString → Nat → Bool → Option (Bool × GoString)
  | 0, _, _, _ => none
  | fuel + 1, chunk, nrange, m =>
    if chunk.head? = some 93 ∧ nrange > 0 then some (m, chunk.tail)
    else
      match getEsc chunk with
      | none => none
      | some (lo, chunk1) =>
        if chunk1.head? = some 45 then
          match getEsc chunk1.tail with
          | none => none
          | some (hi, chunk2) =>
            classLoop r fuel chunk2 (nrange + 1) (m || decide (lo ≤ r ∧ r ≤ hi))
        else classLoop r fuel chunk1 (nrange + 1) (m || decide (lo ≤ r ∧ r ≤ lo))

/-- The function matchChunk of filepath.Match: whether the chunk (literals, character
classes and question marks) matches the beginning of s. The flag failed records that the
match has failed while the rest of the chunk is still checked. A byte stands for a rune. -/
def matchChunkLoop : Nat → GoString → GoString → Bool → ChunkResult
  | _, [], s, failed => if failed then ChunkResult.failed else ChunkResult.ok s
  | 0, _ :: _, _, _ => ChunkResult.bad
  | fuel + 1, c :: chunk, s, failed0 =>
    let failed := failed0 || s.isEmpty
    if c = 91 then
      -- character class
      let r := if !failed then s.headD 0 else 0
      let s1 := if !failed then s.tail else s
      let negated : Bool := chunk.head? = some 94
      let chunk1 := if negated then chunk.tail else chunk
      match classLoop r (chunk1.length + 1) chunk1 0 false with
      | none => ChunkResult.bad
      | some (m, chunk2) => matchChunkLoop fuel chunk2 s1 (failed || (m == negated))
    else if c = 63 then
      -- question mark: any one character except the separator
      if !failed then matchChunkLoop fuel chunk s.tail (s.head? = some Separator)
      else matchChunkLoop fuel chunk s failed
    else if c = 92 then
      -- escaped literal
      match chunk with
      | [] => ChunkResult.bad
      | c2 :: chunk2 =>
        if !failed then matchChunkLoop fuel chunk2 s.tail (s.head? ≠ some c2)
        else matchChunkLoop fuel chunk2 s failed
    else
      if !failed then matchChunkLoop fuel chunk s.tail (s.head? ≠ some c)
      else matchChunkLoop fuel chunk s failed

/-- The function matchChunk with enough fuel for the whole chunk. -/
def matchChunk (chunk s : GoString) : ChunkResult :=
  matchChunkLoop chunk.length chunk s false

/-- The scan of scanChunk: the length of the chunk, which ends at the first star outside a
character class. -/
def scanLen : GoString → Bool → Nat
  | [], _ => 0
  | c :: rest, inrange =>
    if c = 92 then
      match rest with
      | [] => 1
      | _ :: rest2 => 2 + scanLen rest2 inrange
    else if c = 91 then 1 + scanLen rest true
    else if c = 93 then 1 + scanLen rest false
    else if c = 42 then (if inrange then 1 + scanLen rest inrange else 0)
    else 1 + scanLen rest inrange

/-- The function scanChunk: the next segment of the pattern, a non-star string possibly
preceded by stars, and the rest of the pattern. -/
def scanChunk (pattern : GoString) : Bool × GoString × GoString :=
  let star : Bool := pattern.head? = some 42
  let p := pattern.dropWhile (· = 42)
  let i := scanLen p false
  (star, p.take i, p.drop i)

/-- The inner loop of filepath.Match after a star: the chunk is tried after skipping
i+1 bytes of the name, for each i up to the first separator. -/
def starLoop (chunk : GoString) (last : Bool) : GoString → ChunkResult
  | [] => ChunkResult.failed
  | c :: rest =>
    if c = Separator then ChunkResult.failed
    else
      match matchChunk chunk rest with
      | ChunkResult.ok t => if last ∧ t ≠ [] then starLoop chunk last rest else ChunkResult.ok t
      | ChunkResult.bad => ChunkResult.bad
      | ChunkResult.failed => starLoop chunk last rest

/-- The main loop of filepath.Match over the chunks of the pattern; none is ErrBadPattern. -/
def matchLoop : Nat → GoString → GoString → Option Bool
  | _, [], name => some (name = [])
  | 0, _ :: _, _ => none
  | fuel + 1, c :: pat, name =>
    match scanChunk (c :: pat) with
    | (star, chunk, rest) =>
      if star ∧ chunk = [] then
        -- Trailing * matches rest of string unless it has a /.
        some (Separator ∉ name)
      else
        let afterStar : Option Bool :=
          if star then
            match starLoop chunk (rest = []) name with
            | ChunkResult.ok t => matchLoop fuel rest t
            | ChunkResult.bad => none
            | ChunkResult.failed => some false
          else some false
        match matchChunk chunk name with
        | ChunkResult.ok t => if t = [] ∨ rest ≠ [] then matchLoop fuel rest t else afterStar
        | ChunkResult.bad => none
        | ChunkResult.failed => afterStar

/-- The function filepath.Match: whether the name matches the shell file name pattern. -/
def Match (pattern name : GoString) : Option Bool :=
  matchLoop pattern.length pattern name

/-! The reporter: askUpdateReviews, walksByLatest, walksByFiles and main
(cmd/reporter/reporter.go). -/

/-- The slow paths of the strings package, taken when the input has a byte outside ASCII;
they depend on the Unicode tables and are parameters of the model. -/
structure Unicode where
  TrimFunc : GoString → GoString
  TrimRightFunc : GoString → GoString
  MapToLower : GoString → GoString

/-- The table asciiSpace of the strings package: tab, line feed, vertical tab, form feed,
carriage return and space. -/
def asciiSpace (c : Nat) : Bool := c = 9 ∨ c = 10 ∨ c = 11 ∨ c = 12 ∨ c = 13 ∨ c = 32

/-- The function strings.TrimSpace: leading and trailing white space removed. The fast
path handles ASCII; at a byte outside ASCII the Unicode-aware function takes over. -/
def TrimSpace (u : Unicode) (s : GoString) : GoString :=
  match s.dropWhile asciiSpace with
  | [] => []
  | c :: s1 =>
    if c ≥ 128 then u.TrimFunc (c :: s1)
    else
      match (c :: s1).reverse.dropWhile asciiSpace with
      | [] => []
      | d :: r => if d ≥ 128 then u.TrimRightFunc (d :: r).reverse else (d :: r).reverse

/-- The function strings.ToLower: an ASCII-only string has its upper case letters mapped
to lower case; any other string goes through the Unicode mapping. -/
def ToLower (u : Unicode) (s : GoString) : GoString :=
  if s.all (· < 128) then s.map (fun c => if 65 ≤ c ∧ c ≤ 90 then c + 32 else c)
  else u.MapToLower s

/-- The function askUpdateReviews, after the prompt is printed and fmt.Scanln has read the
answer into input. -/
def askUpdateReviews (u : Unicode) (input : GoString) : Bool :=
  ToLower u (TrimSpace u input) = str "y"

/-- The command line flags of the reporter. -/
structure Flags where
  configFile : GoString
  walkPath : GoString
  reviewFile : GoString
  hostname : GoString
  beforeFile : GoString
  afterFile : GoString
  paginate : Bool
  verbose : Bool
  updateReview : Bool

/-- The collaborators of main outside reporter.go, over a type W of loaded walk files:
what each call returns in this run (none stands for an error), and the answer that
fmt.Scanln reads from standard input. -/
structure World (W : Type) where
  unicode : Unicode
  ReporterFromConfigFile : GoString → Bool → Bool
  ReadLastGoodWalk : GoString → GoString → Option (Option W)
  ReadLatestWalk : GoString → GoString → Option W
  ReadWalk : GoString → Option W
  Compare : Option W → W → Bool
  startPager : Bool
  PrintRuleSummary : Bool
  answer : GoString
  UpdateReviewProto : W → GoString → Bool

/-- The observable steps of a run of main. -/
inductive Event where
  | readLastGoodWalk (hostname reviewFile : GoString)
  | readLatestWalk (hostname walkPath : GoString)
  | readWalk (file : GoString)
  | compare
  | metrics
  | prompt
  | updateReviewProto (reviewFile : GoString)
  | notUpdating
deriving DecidableEq

/-- The calls of log.Fatal in main, by cause. -/
inductive Fatal where
  | configFileMissing
  | reporterConfig
  | mutuallyExclusive
  | modeMissing
  | walks
  | report
  | pager
  | ruleSummary
  | updateReview
deriving DecidableEq

/-- How a run of main ends: it returns, or log.Fatal exits the process. -/
inductive Exit where
  | returned
  | fatal (cause : Fatal)
deriving DecidableEq

/-- A run of main: the steps taken, in order, and the way it ended. -/
structure Run where
  trace : List Event
  exit : Exit
deriving DecidableEq

/-- The function walksByLatest: the last known good walk and the latest walk of the host. -/
def walksByLatest {W : Type} (w : World W) (hostname reviewFile walkPath : GoString) :
    List Event × Option (Option W × W) :=
  match w.ReadLastGoodWalk hostname reviewFile with
  | none => ([Event.readLastGoodWalk hostname reviewFile], none)
  | some before =>
    match w.ReadLatestWalk hostname walkPath with
    | none =>
      ([Event.readLastGoodWalk hostname reviewFile, Event.readLatestWalk hostname walkPath],
        none)
    | some after =>
      ([Event.readLastGoodWalk hostname reviewFile, Event.readLatestWalk hostname walkPath],
        some (before, after))

/-- The function walksByFiles: the walk in afterFile and, when named, the one in
beforeFile. -/
def walksByFiles {W : Type} (w : World W) (beforeFile afterFile : GoString) :
    List Event × Option (Option W × W) :=
  match w.ReadWalk afterFile with
  | none => ([Event.readWalk afterFile], none)
  | some after =>
    if beforeFile ≠ [] then
      match w.ReadWalk beforeFile with
      | none => ([Event.readWalk afterFile, Event.readWalk beforeFile], none)
      | some before =>
        ([Event.readWalk afterFile, Event.readWalk beforeFile], some (some before, after))
    else ([Event.readWalk afterFile], some (none, after))

/-- The last step of main, "Update reviews file if desired": the flag is tested first and
the question is asked only when it is set. -/
def updateStep {W : Type} (f : Flags) (w : World W) (after : W) : Run :=
  if f.updateReview then
    if askUpdateReviews w.unicode w.answer then
      if w.UpdateReviewProto after f.reviewFile then
        ⟨[Event.prompt, Event.updateReviewProto f.reviewFile], Exit.returned⟩
      else
        ⟨[Event.prompt, Event.updateReviewProto f.reviewFile], Exit.fatal Fatal.updateReview⟩
    else ⟨[Event.prompt, Event.notUpdating], Exit.returned⟩
  else ⟨[Event.notUpdating], Exit.returned⟩

/-- The middle of main: the comparison of the walks, the output of the report (through
the pager when asked for) and then the update step. -/
def reportStep {W : Type} (f : Flags) (w : World W) (before : Option W) (after : W) : Run :=
  if !w.Compare before after then ⟨[Event.compare], Exit.fatal Fatal.report⟩
  else if f.paginate ∧ !w.startPager then ⟨[Event.compare], Exit.fatal Fatal.pager⟩
  else if !w.PrintRuleSummary then ⟨[Event.compare], Exit.fatal Fatal.ruleSummary⟩
  else
    let r := updateStep f w after
    ⟨Event.compare :: Event.metrics :: r.trace, r.exit⟩

/-- The function main of the reporter. -/
def main {W : Type} (f : Flags) (w : World W) : Run :=
  -- Loading configs and walks.
  if f.configFile = [] then ⟨[], Exit.fatal Fatal.configFileMissing⟩
  else if !w.ReporterFromConfigFile f.configFile f.verbose then
    ⟨[], Exit.fatal Fatal.reporterConfig⟩
  else
    let continue_ (r : List Event × Option (Option W × W)) : Run :=
      match r.2 with
      | none => ⟨r.1, Exit.fatal Fatal.walks⟩
      | some (before, after) =>
        let s := reportStep f w before after
        ⟨r.1 ++ s.trace, s.exit⟩
    if f.hostname ≠ [] ∧ f.reviewFile ≠ [] ∧ f.walkPath ≠ [] then
      if f.afterFile ≠ [] ∨ f.beforeFile ≠ [] then ⟨[], Exit.fatal Fatal.mutuallyExclusive⟩
      else continue_ (walksByLatest w f.hostname f.reviewFile f.walkPath)
    else if f.afterFile ≠ [] then continue_ (walksByFiles w f.beforeFile f.afterFile)
    else ⟨[], Exit.fatal Fatal.modeMissing⟩

/-! The text encoding: writeTextProto and readTextProto (fswalker.go). -/

/-- The function strings.ReplaceAll(s, old, new) for one-byte strings old and new: every
occurrence of the byte old becomes the byte new. -/
def ReplaceAll (s : GoString) (old new : Nat) : GoString :=
  s.map (fun c => if c = old then new else c)

/-- The function writeTextProto, up to the call of WriteFile: the bytes written for the
message pb, or none when prototext.Marshal returns an error. The marshaller of the
protobuf library is a parameter. -/
def writeTextProto {M : Type} (Marshal : M → Option GoString) (pb : M) : Option GoString :=
  match Marshal pb with
  | none => none
  | some blob =>
    -- replace message boundary characters as curly braces look nicer
    some (ReplaceAll (ReplaceAll blob 60 123) 62 125)

/-- The function readTextProto, after ReadFile returned the bytes b of the file: the
message that prototext.Unmarshal, a parameter, decodes from them. -/
def readTextProto {M : Type} (Unmarshal : GoString → Option M) (b : GoString) : Option M :=
  Unmarshal b

/-- Modelled from the spec: the message ReportConfig of proto/fswalker/fswalker.proto,
which is not among the sources, with the fields the spec's data model and the test
getTestReportConfig give it: the version and the excluded path prefixes. -/
structure ReportConfig where
  Version : Nat
  ExcludePfx : List GoString
deriving DecidableEq

/-- A hexadecimal digit in lower case. -/
def hexDigit (n : Nat) : Nat := if n < 10 then 48 + n else 87 + n

/-- The escaping of one byte inside a string literal of the protobuf text format
(appendString of the protobuf library): the quote and the backslash get a backslash,
line feed, carriage return and tab become \n, \r and \t, other control bytes become \x
and two hexadecimal digits, and every other byte, the angle brackets and the curly
braces among them, is copied. Exact for ASCII. -/
def escapeByte (c : Nat) : GoString :=
  if c = 34 ∨ c = 92 then [92, c]
  else if c = 10 then [92, 110]
  else if c = 13 then [92, 114]
  else if c = 9 then [92, 116]
  else if c < 32 ∨ c = 127 then [92, 120, hexDigit (c / 16), hexDigit (c % 16)]
  else [c]

/-- A string literal of the protobuf text format. -/
def appendString (s : GoString) : GoString :=
  34 :: (s.flatMap escapeByte ++ [34])

/-- The fields of a message in the compact text format, separated by one space. -/
def joinFields : List GoString → GoString
  | [] => []
  | [x] => x
  | x :: y :: rest => x ++ 32 :: joinFields (y :: rest)

/-- The text that prototext.Marshal gives a ReportConfig in its default, single-line
form: the fields in order, each as name, colon and value, and a version of zero left
out. -/
def marshalReportConfig (m : ReportConfig) : Option GoString :=
  some (joinFields
    ((if m.Version = 0 then [] else [str "version:" ++ decimal 20 m.Version]) ++
      m.ExcludePfx.map (fun p => str "exclude_pfx:" ++ appendString p)))

/-! Auxiliary definitions for the proofs about filepath.Clean: the path elements of a
string and the stack of elements that the output buffer stands for. -/

/-- One iteration of the main loop of filepath.Clean seen on a whole path element e
(the bytes up to the next separator): the state is the pair (out, dotdot). -/
def stepElem (rooted : Bool) (s : GoString × Nat) (e : GoString) : GoString × Nat :=
  if e = [] ∨ e = [dot] then s
  else if e = [dot, dot] then
    if s.1.length > s.2 then
      (s.1.take (backtrack s.1 s.2 (s.1.length - 1)), s.2)
    else if !rooted then
      let out1 := (if s.1.length > 0 then s.1 ++ [Separator] else s.1) ++ [dot, dot]
      (out1, out1.length)
    else s
  else
    let out1 :=
      if (rooted ∧ s.1.length ≠ 1) ∨ (!rooted ∧ s.1.length ≠ 0) then s.1 ++ [Separator]
      else s.1
    (out1 ++ e, s.2)

/-- The path elements of a string: the runs of bytes between separators. -/
def elems : GoString → List GoString
  | [] => [[]]
  | c :: rest =>
    if c = Separator then [] :: elems rest
    else
      match elems rest with
      | [] => [[c]]
      | x :: xs => (c :: x) :: xs

/-- The elements joined by single separators. -/
def joinSep : List GoString → GoString
  | [] => []
  | [x] => x
  | x :: y :: rest => x ++ Separator :: joinSep (y :: rest)

/-- The element "..". -/
def dots2 : GoString := [dot, dot]

/-- A real path element: not empty, without separator, neither "." nor "..". -/
def Real (n : GoString) : Prop := n ≠ [] ∧ Separator ∉ n ∧ n ≠ [dot] ∧ n ≠ dots2

/-- The buffer contents that stand for a stack of k leading ".." elements followed by names. -/
def render (rooted : Bool) (k : Nat) (names : List GoString) : GoString :=
  (if rooted then [Separator] else []) ++ joinSep (List.replicate k dots2 ++ names)

/-- The value of dotdot that goes with k leading ".." elements. -/
def ddOf (rooted : Bool) (k : Nat) : Nat :=
  if rooted then 1 else (joinSep (List.replicate k dots2)).length

/-- One path element applied to the stack of elements. -/
def absStep (rooted : Bool) (s : Nat × List GoString) (e : GoString) : Nat × List GoString :=
  if e = [] ∨ e = [dot] then s
  else if e = dots2 then
    if s.2 ≠ [] then (s.1, s.2.dropLast)
    else if !rooted then (s.1 + 1, [])
    else s
  else (s.1, s.2 ++ [e])

/-- The stack invariant: a rooted path has no leading ".." and every name is real. -/
def ValidStack (rooted : Bool) (s : Nat × List GoString) : Prop :=
  (rooted = true → s.1 = 0) ∧ ∀ n ∈ s.2, Real n

/-- The state of the loop that stands for a stack. -/
def stateOf (rooted : Bool) (s : Nat × List GoString) : GoString × Nat :=
  (render rooted s.1 s.2, ddOf rooted s.1)

/-- The stack that filepath.Clean computes for a path: the path elements applied in order. -/
def stackOf (rooted : Bool) (p : GoString) : Nat × List GoString :=
  (elems p).foldl (absStep rooted) (0, [])

/-- The last step of filepath.Clean: the empty buffer becomes ".". -/
def finish (out : GoString) : GoString := if out = [] then [dot] else out

/-! Auxiliary definitions for the proofs about walk file names. -/

/-- Two decimal digits of a number below 100. -/
def d2 (n : Nat) : GoString := [48 + n / 10, 48 + n % 10]

/-- Four decimal digits of a number below 10000. -/
def d4 (n : Nat) : GoString := [48 + n / 1000, 48 + n / 100 % 10, 48 + n / 10 % 10, 48 + n % 10]

/-- The text YYYYMMDD-HHMMSS of six fields: four digits of the year, two digits of each
other field, and a minus sign between the date and the clock. -/
def stampOf (Y M D h m s : Nat) : GoString :=
  d4 Y ++ (d2 M ++ (d2 D ++ (45 :: (d2 h ++ (d2 m ++ d2 s)))))

/-- The text YYYYMMDD-HHMMSS of the fields of a time. -/
def stamp (t : Time) : GoString :=
  stampOf t.Year.toNat t.Month t.Day t.Hour.toNat t.Minute.toNat t.Second.toNat

/-- The zone Europe/Berlin with its two transitions of the year 2023: summer time from
2023-03-26 01:00 UTC, standard time again from 2023-10-29 01:00 UTC. -/
def berlin2023 : Location := ⟨3600, [(1679792400, 7200), (1698541200, 3600)]⟩

/-! Auxiliary definitions for the proofs about the reporter. -/

/-- The events of the loading stage: reads of walk files. -/
def Event.isRead : Event → Bool
  | Event.readLastGoodWalk _ _ => true
  | Event.readLatestWalk _ _ => true
  | Event.readWalk _ => true
  | _ => false

/-- A run in which no Unicode slow path does anything and every collaborator succeeds:
each read returns a walk, here a number, and the answer typed is "y". -/
def okWorld : World Nat :=
  { unicode := ⟨id, id, id⟩
    ReporterFromConfigFile := fun _ _ => true
    ReadLastGoodWalk := fun _ _ => some (some 1)
    ReadLatestWalk := fun _ _ => some 2
    ReadWalk := fun _ => some 3
    Compare := fun _ _ => true
    startPager := true
    PrintRuleSummary := true
    answer := str "y"
    UpdateReviewProto := fun _ _ => true }

/-- Flags of a run in baseline mode that asks to update the review. -/
def baselineFlags : Flags :=
  { configFile := str "config.asciipb"
    walkPath := str "/walks"
    reviewFile := str "/reviews.asciipb"
    hostname := str "testhost"
    beforeFile := []
    afterFile := []
    paginate := false
    verbose := false
    updateReview := true }

/-! Test vectors of the Go standard library, against which the models of its functions
are checked. -/

/-- Rows of the tables cleantests and nonwincleantests of the tests of Go's filepath
package: a path and the result of filepath.Clean on it. -/
def cleantests : List (String × String) :=
  [("abc", "abc"), ("abc/def", "abc/def"), ("a/b/c", "a/b/c"), (".", "."), ("..", ".."),
   ("../..", "../.."), ("../../abc", "../../abc"), ("/abc", "/abc"), ("/", "/"),
   ("", "."),
   ("abc/", "abc"), ("abc/def/", "abc/def"), ("a/b/c/", "a/b/c"), ("./", "."),
   ("../", ".."), ("../../", "../.."), ("/abc/", "/abc"),
   ("abc//def//ghi", "abc/def/ghi"), ("abc//", "abc"),
   ("abc/./def", "abc/def"), ("/./abc/def", "/abc/def"), ("abc/.", "abc"),
   ("abc/def/ghi/../jkl", "abc/def/jkl"), ("abc/def/../ghi/../jkl", "abc/jkl"),
   ("abc/def/..", "abc"), ("abc/def/../..", "."), ("/abc/def/../..", "/"),
   ("abc/def/../../..", ".."), ("/abc/def/../../..", "/"),
   ("abc/def/../../../ghi/jkl/../../../mno", "../../mno"), ("/../abc", "/abc"),
   ("//abc", "/abc"), ("///abc", "/abc"), ("//abc//", "/abc"),
   ("abc/./../def", "def"), ("abc//./../def", "def"), ("abc/../../././../def", "../../def")]

/-- The ASCII rows of the table matchTests of the tests of Go's filepath package: a
pattern, a name and the result of filepath.Match, none being ErrBadPattern. -/
def matchTests : List (String × String × Option Bool) :=
  [("abc", "abc", some true), ("*", "abc", some true), ("*c", "abc", some true),
   ("a*", "a", some true), ("a*", "abc", some true), ("a*", "ab/c", some false),
   ("a*/b", "abc/b", some true), ("a*/b", "a/c/b", some false),
   ("a*b*c*d*e*/f", "axbxcxdxe/f", some true), ("a*b*c*d*e*/f", "axbxcxdxexxx/f", some true),
   ("a*b*c*d*e*/f", "axbxcxdxe/xxx/f", some false),
   ("a*b*c*d*e*/f", "axbxcxdxexxx/fff", some false),
   ("a*b?c*x", "abxbbxdbxebxczzx", some true), ("a*b?c*x", "abxbbxdbxebxczzy", some false),
   ("ab[c]", "abc", some true), ("ab[b-d]", "abc", some true), ("ab[e-g]", "abc", some false),
   ("ab[^c]", "abc", some false), ("ab[^b-d]", "abc", some false),
   ("ab[^e-g]", "abc", some true), ("a\\*b", "a*b", some true), ("a\\*b", "ab", some false),
   ("a?b", "a/b", some false), ("a*b", "a/b", some false),
   ("[\\]a]", "]", some true), ("[\\-]", "-", some true), ("[x\\-]", "x", some true),
   ("[x\\-]", "-", some true), ("[x\\-]", "z", some false), ("[\\-x]", "x", some true),
   ("[\\-x]", "-", some true), ("[\\-x]", "a", some false),
   ("[]a]", "]", none), ("[-]", "-", none), ("[x-]", "x", none), ("[x-]", "-", none),
   ("[x-]", "z", none), ("[-x]", "x", none), ("[-x]", "-", none), ("[-x]", "a", none),
   ("\\", "a", none), ("[a-b-c]", "a", none), ("[", "a", none), ("[^", "a", none),
   ("[^bc", "a", none), ("a[", "a", none), ("a[", "ab", none), ("a[", "x", none),
   ("a/b[", "x", none), ("*x", "xxx", some true)]

/-- Instants with their text in the layout tsFileFormat in UTC: the Unix epoch, the leap
day of 2000, the days around the end of February 2100, the last second of the year 9999,
the zero time and the second before it. -/
def formatTests : List (Int × String) :=
  [(0, "19700101-000000"), (951782400, "20000229-000000"), (951868800, "20000301-000000"),
   (4107542399, "21000228-235959"), (4107542400, "21000301-000000"),
   (253402300799, "99991231-235959"), (-62135596800, "00010101-000000"),
   (-62135596801, "00001231-235959"), (1709210096, "20240229-123456")]

theorem elems_ne_nil (p : GoString) : elems p ≠ [] := by
  cases p with
  | nil => simp [elems]
  | cons c rest =>
    simp only [elems]
    split
    · simp
    · split <;> simp

theorem elems_cons_sep (rest : GoString) : elems (Separator :: rest) = [] :: elems rest := by
  simp [elems]

theorem elems_takeWhile (p : GoString) :
    elems p = p.takeWhile (· ≠ Separator) ::
      (match p.dropWhile (· ≠ Separator) with
       | [] => []
       | _ :: t => elems t) := by
  induction p with
  | nil => simp [elems]
  | cons c rest ih =>
    by_cases hc : c = Separator
    · subst hc
      simp [elems]
    · simp only [elems, hc, if_false]
      rw [ih]
      simp [List.takeWhile_cons, List.dropWhile_cons, hc]

theorem cleanLoop_nil (rooted : Bool) (fuel : Nat) (out : GoString) (dd : Nat) :
    cleanLoop rooted fuel [] out dd = out := by
  cases fuel <;> simp [cleanLoop]

theorem cleanLoop_sep (rooted : Bool) (fuel : Nat) (rest out : GoString) (dd : Nat) :
    cleanLoop rooted (fuel + 1) (Separator :: rest) out dd = cleanLoop rooted fuel rest out dd := by
  simp [cleanLoop]

theorem cleanLoop_elem (rooted : Bool) (fuel : Nat) (c : Nat) (rest out : GoString) (dd : Nat)
    (hc : c ≠ Separator) :
    cleanLoop rooted (fuel + 1) (c :: rest) out dd =
      cleanLoop rooted fuel ((c :: rest).dropWhile (· ≠ Separator))
        (stepElem rooted (out, dd) ((c :: rest).takeWhile (· ≠ Separator))).1
        (stepElem rooted (out, dd) ((c :: rest).takeWhile (· ≠ Separator))).2 := by
  have hsd : Separator ≠ dot := by decide
  rcases rest with _ | ⟨d, rest2⟩
  · by_cases hd : c = dot
    · subst hd
      simp [cleanLoop, stepElem, hc]
    · simp [cleanLoop, stepElem, hc, hd]
  · by_cases hd : c = dot
    · subst hd
      by_cases hds : d = Separator
      · subst hds
        simp [cleanLoop, stepElem, hc]
      · by_cases hdd : d = dot
        · subst hdd
          rcases rest2 with _ | ⟨x, rest3⟩
          · simp [cleanLoop, stepElem, hc]
            split <;> [rfl; (split <;> rfl)]
          · by_cases hx : x = Separator
            · subst hx
              simp [cleanLoop, stepElem, hc]
              split <;> [rfl; (split <;> rfl)]
            · simp [cleanLoop, stepElem, hc, hx, List.takeWhile_cons, List.dropWhile_cons]
        · simp [cleanLoop, stepElem, hc, hds, hdd, List.takeWhile_cons, List.dropWhile_cons]
    · simp [cleanLoop, stepElem, hc, hd, List.takeWhile_cons, List.dropWhile_cons]

theorem dropWhile_head_sep (p t : GoString) (x : Nat)
    (h : p.dropWhile (· ≠ Separator) = x :: t) : x = Separator := by
  have := List.head_dropWhile_not (· ≠ Separator) p (by rw [h]; simp)
  simp only [h, List.head_cons] at this
  simpa using this

theorem cleanLoop_eq_fold (rooted : Bool) :
    ∀ (fuel : Nat) (rem out : GoString) (dd : Nat), rem.length ≤ fuel →
      cleanLoop rooted fuel rem out dd = ((elems rem).foldl (stepElem rooted) (out, dd)).1 := by
  intro fuel
  induction fuel with
  | zero =>
    intro rem out dd h
    have : rem = [] := List.length_eq_zero.mp (Nat.le_zero.mp h)
    subst this
    simp [cleanLoop, elems, stepElem]
  | succ fuel ih =>
    intro rem out dd h
    rcases rem with _ | ⟨c, rest⟩
    · simp [cleanLoop, elems, stepElem]
    · by_cases hc : c = Separator
      · subst hc
        rw [cleanLoop_sep, elems_cons_sep, List.foldl_cons]
        have h1 : stepElem rooted (out, dd) [] = (out, dd) := by simp [stepElem]
        rw [h1]
        exact ih rest out dd (by simpa using h)
      · rw [cleanLoop_elem rooted fuel c rest out dd hc, elems_takeWhile (c :: rest)]
        have hlen : ((c :: rest).dropWhile (· ≠ Separator)).length ≤ fuel := by
          have h2 : (c :: rest).dropWhile (· ≠ Separator) = rest.dropWhile (· ≠ Separator) := by
            simp [List.dropWhile_cons, hc]
          rw [h2]
          have h3 := (List.dropWhile_sublist (· ≠ Separator) (l := rest)).length_le
          simp only [List.length_cons] at h
          omega
        generalize hst : stepElem rooted (out, dd) ((c :: rest).takeWhile (· ≠ Separator)) = st
          at *
        generalize ht : (c :: rest).dropWhile (· ≠ Separator) = t at *
        rcases t with _ | ⟨x, t2⟩
        · rw [cleanLoop_nil]
          simp only [List.foldl_cons, List.foldl_nil, hst]
        · have hx : x = Separator := dropWhile_head_sep _ _ _ ht
          subst hx
          rw [ih _ _ _ hlen, elems_cons_sep]
          simp only [List.foldl_cons, hst]
          have h1 : stepElem rooted (st.1, st.2) [] = st := by simp [stepElem]
          rw [h1]

theorem joinSep_cons_cons (x y : GoString) (rest : List GoString) :
    joinSep (x :: y :: rest) = x ++ Separator :: joinSep (y :: rest) := rfl

theorem joinSep_snoc (xs : List GoString) (x : GoString) (h : xs ≠ []) :
    joinSep (xs ++ [x]) = joinSep xs ++ Separator :: x := by
  induction xs with
  | nil => exact absurd rfl h
  | cons a rest ih =>
    rcases rest with _ | ⟨b, rest2⟩
    · simp [joinSep]
    · have h1 := ih (by simp)
      rw [List.cons_append] at h1
      rw [List.cons_append, List.cons_append, joinSep_cons_cons, h1, joinSep_cons_cons]
      simp

theorem joinSep_length_pos (xs : List GoString) (h : xs ≠ []) (hne : ∀ x ∈ xs, x ≠ []) :
    0 < (joinSep xs).length := by
  rcases xs with _ | ⟨a, rest⟩
  · exact absurd rfl h
  · have ha : a ≠ [] := hne a (by simp)
    have : 0 < a.length := List.length_pos.mpr ha
    rcases rest with _ | ⟨b, rest2⟩
    · simpa [joinSep] using this
    · simp [joinSep]

theorem getD_append_add (pre l : GoString) (j : Nat) :
    (pre ++ l).getD (pre.length + j) 0 = l.getD j 0 := by
  induction pre with
  | nil => simp
  | cons a pre ih =>
    have : (a :: pre).length + j = (pre.length + j) + 1 := by simp; omega
    rw [List.cons_append, this, List.getD_cons_succ, ih]

theorem getD_ne_sep (l : GoString) (j : Nat) (hj : j < l.length) (hl : Separator ∉ l) :
    l.getD j 0 ≠ Separator := by
  rw [List.getD_eq_getElem _ _ hj]
  intro heq
  exact hl (heq ▸ List.getElem_mem hj)

theorem backtrack_sep (pre last : GoString) (dd : Nat) (hl : Separator ∉ last)
    (hdd : dd ≤ pre.length) :
    ∀ j, j ≤ last.length →
      backtrack (pre ++ Separator :: last) dd (pre.length + j) = pre.length := by
  intro j
  induction j with
  | zero =>
    intro _
    rcases hp : pre.length with _ | w
    · simp [backtrack]
    · have : (pre ++ Separator :: last).getD (w + 1) 0 = Separator := by
        have := getD_append_add pre (Separator :: last) 0
        rw [Nat.add_zero, hp] at this
        rw [this]; rfl
      rw [Nat.add_zero, backtrack, this]
      simp
  | succ j ih =>
    intro hj
    have hget : (pre ++ Separator :: last).getD (pre.length + j + 1) 0 ≠ Separator := by
      have := getD_append_add pre (Separator :: last) (j + 1)
      rw [← Nat.add_assoc] at this
      rw [this, List.getD_cons_succ]
      exact getD_ne_sep last j (by omega) hl
    have hgt : pre.length + j + 1 > dd := by omega
    rw [← Nat.add_assoc, backtrack, if_pos ⟨hgt, hget⟩]
    exact ih (by omega)

theorem backtrack_plain (pre last : GoString) (hl : Separator ∉ last) :
    ∀ j, j < last.length → backtrack (pre ++ last) pre.length (pre.length + j) = pre.length := by
  intro j
  induction j with
  | zero =>
    intro _
    rcases hp : pre.length with _ | w
    · simp [backtrack]
    · rw [Nat.add_zero, backtrack]
      simp
  | succ j ih =>
    intro hj
    have hget : (pre ++ last).getD (pre.length + j + 1) 0 ≠ Separator := by
      have := getD_append_add pre last (j + 1)
      rw [← Nat.add_assoc] at this
      rw [this]
      exact getD_ne_sep last (j + 1) hj hl
    have hgt : pre.length + j + 1 > pre.length := by omega
    rw [← Nat.add_assoc, backtrack, if_pos ⟨hgt, hget⟩]
    exact ih (by omega)

theorem joinSep_append (xs ys : List GoString) (hx : xs ≠ []) (hy : ys ≠ []) :
    joinSep (xs ++ ys) = joinSep xs ++ Separator :: joinSep ys := by
  induction xs with
  | nil => exact absurd rfl hx
  | cons a rest ih =>
    rcases rest with _ | ⟨b, rest2⟩
    · rcases ys with _ | ⟨y, ys2⟩
      · exact absurd rfl hy
      · simp [joinSep]
    · have h1 := ih (by simp)
      rw [List.cons_append] at h1
      rw [List.cons_append, List.cons_append, joinSep_cons_cons, h1, joinSep_cons_cons]
      simp

theorem joinSep_length_le (xs ys : List GoString) :
    (joinSep xs).length ≤ (joinSep (xs ++ ys)).length := by
  rcases xs with _ | ⟨a, rest⟩
  · simp [joinSep]
  · rcases ys with _ | ⟨y, ys2⟩
    · simp
    · rw [joinSep_append _ _ (by simp) (by simp)]
      simp

theorem replicate_dots2_ne (k : Nat) : ∀ x ∈ List.replicate k dots2, x ≠ [] := by
  intro x hx
  rw [List.eq_of_mem_replicate hx]
  decide

theorem stack_ne_nil (k : Nat) (names : List GoString) (hn : ∀ n ∈ names, Real n) :
    ∀ x ∈ List.replicate k dots2 ++ names, x ≠ [] := by
  intro x hx
  rcases List.mem_append.mp hx with h | h
  · exact replicate_dots2_ne k x h
  · exact (hn x h).1

theorem render_push (rooted : Bool) (k : Nat) (names : List GoString) (e : GoString)
    (hn : ∀ n ∈ names, Real n) (he : Real e) :
    stepElem rooted (render rooted k names, ddOf rooted k) e =
      (render rooted k (names ++ [e]), ddOf rooted k) := by
  obtain ⟨h1, _, h3, h4⟩ := he
  have hstep : stepElem rooted (render rooted k names, ddOf rooted k) e =
      ((if (rooted ∧ (render rooted k names).length ≠ 1) ∨
            (!rooted ∧ (render rooted k names).length ≠ 0)
        then render rooted k names ++ [Separator] else render rooted k names) ++ e,
        ddOf rooted k) := by
    have h4b : e ≠ [dot, dot] := h4
    simp [stepElem, h1, h3, h4b]
  rw [hstep]
  congr 1
  by_cases hxs : List.replicate k dots2 ++ names = []
  · have hr : render rooted k names = if rooted then [Separator] else [] := by
      simp [render, hxs, joinSep]
    have hr2 : render rooted k (names ++ [e]) = (if rooted then [Separator] else []) ++ e := by
      rw [render, ← List.append_assoc, hxs]
      simp [joinSep]
    rw [hr2, hr]
    cases rooted <;> simp
  · have hpos := joinSep_length_pos _ hxs (stack_ne_nil k names hn)
    have hr2 : render rooted k (names ++ [e]) = render rooted k names ++ Separator :: e := by
      rw [render, ← List.append_assoc, joinSep_snoc _ _ hxs, render]
      simp
    rw [hr2]
    cases rooted
    · have : (render false k names).length ≠ 0 := by
        simp only [render, Bool.false_eq_true, if_false, List.nil_append]; omega
      simp [this]
    · have : (render true k names).length ≠ 1 := by
        simp only [render, if_true, List.length_append, List.length_singleton]; omega
      simp [this]

theorem stepElem_dd_pop (rooted : Bool) (out : GoString) (dd : Nat) (h : out.length > dd) :
    stepElem rooted (out, dd) dots2 = (out.take (backtrack out dd (out.length - 1)), dd) := by
  simp [stepElem, dots2, h]

theorem ddOf_zero (rooted : Bool) :
    ddOf rooted 0 = (if rooted then [Separator] else ([] : GoString)).length := by
  cases rooted <;> simp [ddOf, joinSep]

theorem render_pop (rooted : Bool) (k : Nat) (init : List GoString) (last : GoString)
    (hk : rooted = true → k = 0) (hn : ∀ n ∈ init ++ [last], Real n) :
    stepElem rooted (render rooted k (init ++ [last]), ddOf rooted k) dots2 =
      (render rooted k init, ddOf rooted k) := by
  have hlast : Real last := hn last (by simp)
  obtain ⟨hl1, hl2, _, _⟩ := hlast
  have hlpos : 0 < last.length := List.length_pos.mpr hl1
  by_cases hxs : List.replicate k dots2 ++ init = []
  · have hk0 : k = 0 := by
      have := (List.append_eq_nil.mp hxs).1
      simpa using this
    have hi : init = [] := (List.append_eq_nil.mp hxs).2
    subst hk0 hi
    have hr : render rooted 0 ([] ++ [last]) = (if rooted then [Separator] else []) ++ last := by
      simp [render, joinSep]
    have hr0 : render rooted 0 [] = (if rooted then [Separator] else []) := by
      simp [render, joinSep]
    rw [hr, hr0, ddOf_zero]
    generalize (if rooted then [Separator] else ([] : GoString)) = R
    rw [stepElem_dd_pop _ _ _ (by simp; omega)]
    have hlen : (R ++ last).length - 1 = R.length + (last.length - 1) := by
      simp; omega
    rw [hlen, backtrack_plain R last hl2 (last.length - 1) (by omega)]
    simp
  · have hr : render rooted k (init ++ [last]) = render rooted k init ++ Separator :: last := by
      rw [render, ← List.append_assoc, joinSep_snoc _ _ hxs, render]
      simp
    have hdd : ddOf rooted k ≤ (render rooted k init).length := by
      cases rooted
      · simp only [ddOf, render, Bool.false_eq_true, if_false, List.nil_append]
        exact joinSep_length_le _ _
      · simp [ddOf, render]
    rw [hr, stepElem_dd_pop _ _ _ (by simp; omega)]
    have hlen : (render rooted k init ++ Separator :: last).length - 1 =
        (render rooted k init).length + last.length := by
      simp
    rw [hlen, backtrack_sep _ last _ hl2 hdd last.length (le_refl _)]
    simp

theorem render_dd_rooted :
    stepElem true (render true 0 [], ddOf true 0) dots2 = (render true 0 [], ddOf true 0) := by
  decide

theorem render_dd_unrooted (k : Nat) :
    stepElem false (render false k [], ddOf false k) dots2 =
      (render false (k + 1) [], ddOf false (k + 1)) := by
  have hr : ∀ j, render false j [] = joinSep (List.replicate j dots2) := by
    intro j; simp [render]
  have hd : ∀ j, ddOf false j = (joinSep (List.replicate j dots2)).length := by
    intro j; simp [ddOf]
  rw [hr, hr, hd, hd]
  generalize hout : joinSep (List.replicate k dots2) = out
  have hnext : joinSep (List.replicate (k + 1) dots2) =
      (if out.length > 0 then out ++ [Separator] else out) ++ [dot, dot] := by
    rw [List.replicate_succ']
    rcases k with _ | k
    · subst hout; simp [joinSep, dots2]
    · rw [joinSep_snoc _ _ (by simp [List.replicate_succ]), hout]
      have : 0 < out.length := by
        rw [← hout]
        exact joinSep_length_pos _ (by simp [List.replicate_succ]) (replicate_dots2_ne _)
      simp [this, dots2]
  rw [hnext]
  simp [stepElem, dots2]

theorem stepElem_render (rooted : Bool) (s : Nat × List GoString) (e : GoString)
    (hs : ValidStack rooted s) (he : Separator ∉ e) :
    stepElem rooted (stateOf rooted s) e = stateOf rooted (absStep rooted s e) ∧
      ValidStack rooted (absStep rooted s e) := by
  obtain ⟨k, names⟩ := s
  obtain ⟨hk, hn⟩ := hs
  simp only at hk hn
  by_cases h1 : e = [] ∨ e = [dot]
  · have ha : absStep rooted (k, names) e = (k, names) := by simp [absStep, h1]
    have hb : stepElem rooted (stateOf rooted (k, names)) e = stateOf rooted (k, names) := by
      simp [stepElem, h1]
    rw [ha, hb]
    exact ⟨rfl, hk, hn⟩
  · by_cases h2 : e = dots2
    · subst h2
      rcases List.eq_nil_or_concat names with hnil | ⟨init, last, hcat⟩
      · subst hnil
        cases rooted
        · have ha : absStep false (k, []) dots2 = (k + 1, []) := by simp [absStep, dots2]
          rw [ha]
          exact ⟨render_dd_unrooted k, by simp [ValidStack]⟩
        · have hk0 : k = 0 := hk rfl
          subst hk0
          have ha : absStep true (0, []) dots2 = (0, []) := by simp [absStep, dots2]
          rw [ha]
          exact ⟨render_dd_rooted, by simp [ValidStack]⟩
      · rw [List.concat_eq_append] at hcat
        subst hcat
        have ha : absStep rooted (k, init ++ [last]) dots2 = (k, init) := by
          simp [absStep, dots2]
        rw [ha]
        refine ⟨render_pop rooted k init last hk hn, hk, ?_⟩
        intro n hmem
        exact hn n (by simp [hmem])
    · have hr : Real e := by
        refine ⟨fun h => h1 (Or.inl h), he, fun h => h1 (Or.inr h), h2⟩
      have ha : absStep rooted (k, names) e = (k, names ++ [e]) := by
        simp [absStep, h1, h2]
      rw [ha]
      refine ⟨render_push rooted k names e hn hr, hk, ?_⟩
      intro n hmem
      rcases List.mem_append.mp hmem with h | h
      · exact hn n h
      · simp at h; subst h; exact hr

theorem fold_render (rooted : Bool) (es : List GoString) (hes : ∀ e ∈ es, Separator ∉ e) :
    ∀ s : Nat × List GoString, ValidStack rooted s →
      es.foldl (stepElem rooted) (stateOf rooted s) =
          stateOf rooted (es.foldl (absStep rooted) s) ∧
        ValidStack rooted (es.foldl (absStep rooted) s) := by
  induction es with
  | nil => intro s hs; exact ⟨rfl, hs⟩
  | cons e es ih =>
    intro s hs
    obtain ⟨h1, h2⟩ := stepElem_render rooted s e hs (hes e (by simp))
    simp only [List.foldl_cons]
    rw [h1]
    exact ih (fun x hx => hes x (by simp [hx])) _ h2

theorem elems_sepfree (p : GoString) : ∀ e ∈ elems p, Separator ∉ e := by
  induction p with
  | nil => simp [elems]
  | cons c rest ih =>
    by_cases hc : c = Separator
    · subst hc
      intro e he
      simp only [elems, if_true, List.mem_cons] at he
      rcases he with h | h
      · subst h; simp
      · exact ih e h
    · intro e he
      simp only [elems, hc, if_false] at he
      rcases hr : elems rest with _ | ⟨x, xs⟩
      · exact absurd hr (elems_ne_nil rest)
      · rw [hr] at he ih
        simp only [List.mem_cons] at he
        rcases he with h | h
        · subst h
          have := ih x (by simp)
          simp only [List.mem_cons, not_or]
          exact ⟨fun h => hc h.symm, this⟩
        · exact ih e (by simp [h])

theorem validStack_init (rooted : Bool) : ValidStack rooted (0, []) := by
  simp [ValidStack]

theorem stateOf_init_true : stateOf true (0, []) = ([Separator], 1) := by decide

theorem stateOf_init_false : stateOf false (0, []) = ([], 0) := by decide

theorem Clean_rooted (rest : GoString) :
    Clean (Separator :: rest) =
      render true (stackOf true rest).1 (stackOf true rest).2 ∧
      ValidStack true (stackOf true rest) := by
  have hfold := fold_render true (elems rest) (elems_sepfree rest) (0, []) (validStack_init true)
  refine ⟨?_, hfold.2⟩
  have hloop := cleanLoop_eq_fold true (rest.length + 1) rest [Separator] 1 (by omega)
  rw [← stateOf_init_true, hfold.1] at hloop
  have hne : render true (stackOf true rest).1 (stackOf true rest).2 ≠ [] := by
    simp [render]
  simp only [Clean, List.cons_ne_nil, if_false, List.head?_cons, decide_True, if_true,
    List.length_cons, List.tail_cons]
  rw [hloop]
  simp only [stateOf]
  exact if_neg hne

theorem Clean_unrooted (p : GoString) (hp : p ≠ []) (hh : p.head? ≠ some Separator) :
    Clean p = finish (render false (stackOf false p).1 (stackOf false p).2) ∧
      ValidStack false (stackOf false p) := by
  have hfold := fold_render false (elems p) (elems_sepfree p) (0, []) (validStack_init false)
  refine ⟨?_, hfold.2⟩
  have hloop := cleanLoop_eq_fold false p.length p [] 0 (le_refl _)
  rw [← stateOf_init_false, hfold.1] at hloop
  simp only [Clean, hp, if_false, hh, decide_False]
  simp only [Bool.false_eq_true, if_false]
  rw [hloop]
  rfl

theorem Clean_ne_nil (p : GoString) : Clean p ≠ [] := by
  unfold Clean
  split
  · simp
  · simp only
    split <;> split <;> simp_all

theorem elems_sepfree_self (x : GoString) (hx : Separator ∉ x) : elems x = [x] := by
  induction x with
  | nil => rfl
  | cons c x ih =>
    simp only [List.mem_cons, not_or] at hx
    have hc : c ≠ Separator := fun h => hx.1 h.symm
    simp [elems, hc, ih hx.2]

theorem elems_append_sep (x r : GoString) (hx : Separator ∉ x) :
    elems (x ++ Separator :: r) = x :: elems r := by
  induction x with
  | nil => simp [elems]
  | cons c x ih =>
    simp only [List.mem_cons, not_or] at hx
    have hc : c ≠ Separator := fun h => hx.1 h.symm
    simp [elems, hc, ih hx.2]

theorem elems_snoc_sep (p : GoString) : elems (p ++ [Separator]) = elems p ++ [[]] := by
  induction p with
  | nil => simp [elems]
  | cons c rest ih =>
    by_cases hc : c = Separator
    · subst hc
      simp [elems, ih]
    · rcases hr : elems rest with _ | ⟨x, xs⟩
      · exact absurd hr (elems_ne_nil rest)
      · simp [elems, hc, ih, hr]

theorem elems_joinSep (xs : List GoString) (hne : xs ≠ []) (hx : ∀ x ∈ xs, Separator ∉ x) :
    elems (joinSep xs) = xs := by
  induction xs with
  | nil => exact absurd rfl hne
  | cons a rest ih =>
    rcases rest with _ | ⟨b, rest2⟩
    · simpa [joinSep] using elems_sepfree_self a (hx a (by simp))
    · rw [joinSep_cons_cons, elems_append_sep _ _ (hx a (by simp)),
        ih (by simp) (fun x h => hx x (by simp [h]))]

theorem fold_absStep_names (rooted : Bool) (names : List GoString) (hn : ∀ n ∈ names, Real n) :
    ∀ (k0 : Nat) (ns : List GoString),
      names.foldl (absStep rooted) (k0, ns) = (k0, ns ++ names) := by
  induction names with
  | nil => intro k0 ns; simp
  | cons e rest ih =>
    intro k0 ns
    obtain ⟨h1, _, h3, h4⟩ := hn e (by simp)
    have ha : absStep rooted (k0, ns) e = (k0, ns ++ [e]) := by
      simp [absStep, h1, h3, h4]
    rw [List.foldl_cons, ha, ih (fun n h => hn n (by simp [h]))]
    simp

theorem fold_absStep_dots (k : Nat) :
    ∀ k0 : Nat, (List.replicate k dots2).foldl (absStep false) (k0, []) = (k0 + k, []) := by
  induction k with
  | zero => intro k0; simp
  | succ k ih =>
    intro k0
    have ha : absStep false (k0, []) dots2 = (k0 + 1, []) := by simp [absStep, dots2]
    rw [List.replicate_succ, List.foldl_cons, ha, ih]
    congr 1
    omega

theorem stack_sepfree (k : Nat) (names : List GoString) (hn : ∀ n ∈ names, Real n) :
    ∀ x ∈ List.replicate k dots2 ++ names, Separator ∉ x := by
  intro x hx
  rcases List.mem_append.mp hx with h | h
  · rw [List.eq_of_mem_replicate h]
    decide
  · exact (hn x h).2.1

theorem stackOf_render (rooted : Bool) (s : Nat × List GoString) (hs : ValidStack rooted s)
    (suffix : GoString) (hsuf : suffix = [] ∨ suffix = [Separator]) :
    stackOf rooted (joinSep (List.replicate s.1 dots2 ++ s.2) ++ suffix) = s := by
  obtain ⟨k, names⟩ := s
  obtain ⟨hk, hn⟩ := hs
  simp only at hk hn ⊢
  have hfold : (List.replicate k dots2 ++ names).foldl (absStep rooted) (0, []) = (k, names) := by
    rw [List.foldl_append]
    cases rooted
    · rw [fold_absStep_dots, fold_absStep_names false names hn]
      simp
    · rw [hk rfl]
      simp only [List.replicate_zero, List.foldl_nil]
      rw [fold_absStep_names true names hn]
      simp
  by_cases hxs : List.replicate k dots2 ++ names = []
  · rw [hxs] at hfold ⊢
    simp only [List.foldl_nil] at hfold
    rw [← hfold]
    rcases hsuf with h | h <;> subst h <;> simp [stackOf, joinSep, elems, absStep]
  · have he := elems_joinSep _ hxs (stack_sepfree k names hn)
    rcases hsuf with h | h <;> subst h
    · rw [List.append_nil, stackOf, he, hfold]
    · rw [stackOf, elems_snoc_sep, he, List.foldl_append, hfold]
      simp [absStep]

theorem joinSep_head (xs : List GoString) (hne : xs ≠ [])
    (hx : ∀ x ∈ xs, x ≠ [] ∧ Separator ∉ x) :
    joinSep xs ≠ [] ∧ (joinSep xs).head? ≠ some Separator := by
  rcases xs with _ | ⟨a, rest⟩
  · exact absurd rfl hne
  · obtain ⟨ha1, ha2⟩ := hx a (by simp)
    rcases a with _ | ⟨c, a2⟩
    · exact absurd rfl ha1
    · have hc : c ≠ Separator := by
        intro h; apply ha2; simp [h]
      rcases rest with _ | ⟨b, rest2⟩ <;> simp [joinSep, hc]

theorem joinSep_getLast (xs : List GoString) (hne : xs ≠ [])
    (hx : ∀ x ∈ xs, x ≠ [] ∧ Separator ∉ x) :
    (joinSep xs).getLast? ≠ some Separator := by
  rcases List.eq_nil_or_concat xs with hnil | ⟨init, last, hcat⟩
  · exact absurd hnil hne
  · rw [List.concat_eq_append] at hcat
    subst hcat
    obtain ⟨hl1, hl2⟩ := hx last (by simp)
    have hlast : ∀ pre : GoString, (pre ++ last).getLast? ≠ some Separator := by
      intro pre h
      rw [List.getLast?_append_of_ne_nil _ hl1] at h
      exact hl2 (List.mem_of_getLast?_eq_some h)
    rcases init with _ | ⟨a, init2⟩
    · simpa [joinSep] using hlast []
    · rw [joinSep_snoc _ _ (by simp)]
      have := hlast (joinSep (a :: init2) ++ [Separator])
      simpa using this

theorem stack_good (k : Nat) (names : List GoString) (hn : ∀ n ∈ names, Real n) :
    ∀ x ∈ List.replicate k dots2 ++ names, x ≠ [] ∧ Separator ∉ x :=
  fun x hx => ⟨stack_ne_nil k names hn x hx, stack_sepfree k names hn x hx⟩

theorem finish_render_true (k : Nat) (names : List GoString) :
    finish (render true k names) = render true k names := by
  simp [finish, render]

theorem Clean_form (p : GoString) :
    ∃ (rooted : Bool) (s : Nat × List GoString),
      ValidStack rooted s ∧ Clean p = finish (render rooted s.1 s.2) := by
  rcases p with _ | ⟨c, rest⟩
  · exact ⟨false, (0, []), validStack_init false, by decide⟩
  · by_cases hc : c = Separator
    · subst hc
      obtain ⟨h1, h2⟩ := Clean_rooted rest
      exact ⟨true, stackOf true rest, h2, by rw [finish_render_true]; exact h1⟩
    · obtain ⟨h1, h2⟩ := Clean_unrooted (c :: rest) (by simp) (by simp [hc])
      exact ⟨false, stackOf false (c :: rest), h2, h1⟩

theorem Clean_fix (rooted : Bool) (s : Nat × List GoString) (hs : ValidStack rooted s)
    (suffix : GoString) (hsuf : suffix = [] ∨ suffix = [Separator]) :
    Clean (finish (render rooted s.1 s.2) ++ suffix) = finish (render rooted s.1 s.2) := by
  have hst := stackOf_render rooted s hs suffix hsuf
  cases rooted
  · by_cases hxs : List.replicate s.1 dots2 ++ s.2 = []
    · have hr : finish (render false s.1 s.2) = [dot] := by
        simp [finish, render, hxs, joinSep]
      rw [hr]
      rcases hsuf with h | h <;> subst h <;> decide
    · obtain ⟨h1, h2⟩ := joinSep_head _ hxs (stack_good s.1 s.2 hs.2)
      have hr : render false s.1 s.2 = joinSep (List.replicate s.1 dots2 ++ s.2) := by
        simp [render]
      have hf : finish (render false s.1 s.2) = joinSep (List.replicate s.1 dots2 ++ s.2) := by
        rw [hr, finish, if_neg h1]
      rw [hf]
      have hp : joinSep (List.replicate s.1 dots2 ++ s.2) ++ suffix ≠ [] := by
        simp [h1]
      have hh : (joinSep (List.replicate s.1 dots2 ++ s.2) ++ suffix).head? ≠
          some Separator := by
        rw [List.head?_append_of_ne_nil _ h1]
        exact h2
      rw [(Clean_unrooted _ hp hh).1, hst, hr, finish, if_neg h1]
  · rw [finish_render_true]
    have hr : render true s.1 s.2 ++ suffix =
        Separator :: (joinSep (List.replicate s.1 dots2 ++ s.2) ++ suffix) := by
      simp [render]
    rw [hr, (Clean_rooted _).1, hst]

theorem Clean_idem (p : GoString) : Clean (Clean p) = Clean p := by
  obtain ⟨rooted, s, hs, hp⟩ := Clean_form p
  have := Clean_fix rooted s hs [] (Or.inl rfl)
  rw [List.append_nil] at this
  rw [hp, this]

theorem Clean_snoc_sep (p : GoString) : Clean (Clean p ++ [Separator]) = Clean p := by
  obtain ⟨rooted, s, hs, hp⟩ := Clean_form p
  rw [hp]
  exact Clean_fix rooted s hs [Separator] (Or.inr rfl)

theorem Clean_last (p : GoString) (h : (Clean p).getLast? = some Separator) :
    Clean p = [Separator] := by
  obtain ⟨rooted, s, hs, hp⟩ := Clean_form p
  rw [hp] at h ⊢
  by_cases hxs : List.replicate s.1 dots2 ++ s.2 = []
  · cases rooted
    · have hr : finish (render false s.1 s.2) = [dot] := by
        simp [finish, render, hxs, joinSep]
      rw [hr] at h
      exact absurd h (by decide)
    · simp [finish, render, hxs, joinSep]
  · exfalso
    have hl := joinSep_getLast _ hxs (stack_good s.1 s.2 hs.2)
    obtain ⟨h1, _⟩ := joinSep_head _ hxs (stack_good s.1 s.2 hs.2)
    cases rooted
    · have hf : finish (render false s.1 s.2) = joinSep (List.replicate s.1 dots2 ++ s.2) := by
        simp [render, finish, h1]
      rw [hf] at h
      exact hl h
    · rw [finish_render_true] at h
      have hr : render true s.1 s.2 =
          [Separator] ++ joinSep (List.replicate s.1 dots2 ++ s.2) := by
        simp [render]
      rw [hr, List.getLast?_append_of_ne_nil _ h1] at h
      exact hl h

theorem NormalizePath_false (p : GoString) : NormalizePath p false = some (Clean p) := by
  simp [NormalizePath]

theorem NormalizePath_true_root (p : GoString) (h : (Clean p).getLast? = some Separator) :
    NormalizePath p true = some (Clean p) := by
  simp [NormalizePath, h]

theorem NormalizePath_true_append (p : GoString) (h : (Clean p).getLast? ≠ some Separator) :
    NormalizePath p true = some (Clean p ++ [Separator]) := by
  rcases hl : (Clean p).getLast? with _ | c
  · exact absurd (List.getLast?_eq_none_iff.mp hl) (Clean_ne_nil p)
  · have hc : c ≠ Separator := by
      intro hc; rw [hl, hc] at h; exact h rfl
    simp [NormalizePath, hl, hc]

/-- Claim C1: NormalizePath is idempotent. For every path p and flag d the call returns a
value q, and normalizing q again with the same flag returns q. -/
theorem NormalizePath_idempotent (p : GoString) (d : Bool) :
    ∃ q, NormalizePath p d = some q ∧ NormalizePath q d = some q := by
  cases d
  · refine ⟨Clean p, NormalizePath_false p, ?_⟩
    rw [NormalizePath_false, Clean_idem]
  · by_cases h : (Clean p).getLast? = some Separator
    · refine ⟨Clean p, NormalizePath_true_root p h, ?_⟩
      have h2 : (Clean (Clean p)).getLast? = some Separator := by rw [Clean_idem]; exact h
      rw [NormalizePath_true_root _ h2, Clean_idem]
    · refine ⟨Clean p ++ [Separator], NormalizePath_true_append p h, ?_⟩
      have h2 : (Clean (Clean p ++ [Separator])).getLast? ≠ some Separator := by
        rw [Clean_snoc_sep]; exact h
      rw [NormalizePath_true_append _ h2, Clean_snoc_sep]

/-- Claim C2 as stated fails: for the root path the result without the directory flag is
"/" itself, which ends with the separator. -/
theorem NormalizePath_root_not_dir :
    NormalizePath (str "/") false = some (str "/") ∧
      (str "/").getLast? = some Separator := by
  decide

/-- Claim C2, amended: without the directory flag the result has no trailing separator
unless the result is the root path "/" itself. -/
theorem NormalizePath_not_dir_no_trailing (p : GoString) :
    ∃ q, NormalizePath p false = some q ∧
      (q = [Separator] ∨ q.getLast? ≠ some Separator) := by
  refine ⟨Clean p, NormalizePath_false p, ?_⟩
  by_cases h : (Clean p).getLast? = some Separator
  · exact Or.inl (Clean_last p h)
  · exact Or.inr h

/-- Claim C3: with the directory flag the result ends with exactly one separator: it is
some q0 followed by one separator, where q0 does not end with a separator. The three
examples of the claim are evaluated. -/
theorem NormalizePath_dir_one_trailing (p : GoString) :
    (∃ q0, NormalizePath p true = some (q0 ++ [Separator]) ∧
        q0.getLast? ≠ some Separator) ∧
      NormalizePath (str "/") true = some (str "/") ∧
      NormalizePath (str "/a") true = some (str "/a/") ∧
      NormalizePath (str "/a//") true = some (str "/a/") := by
  refine ⟨?_, by decide, by decide, by decide⟩
  by_cases h : (Clean p).getLast? = some Separator
  · refine ⟨[], ?_, by simp⟩
    rw [NormalizePath_true_root p h, Clean_last p h]
    rfl
  · exact ⟨Clean p, NormalizePath_true_append p h, h⟩

/-- Claim C10: NormalizePath is total. The cleaned path is never empty, so the index
len(p)-1 on the directory branch is in bounds and both branches return a value; for the
empty path with the directory flag the value is "./". -/
theorem NormalizePath_total (p : GoString) (d : Bool) :
    Clean p ≠ [] ∧ (Clean p).length - 1 < (Clean p).length ∧
      (∃ q, NormalizePath p d = some q) ∧
      NormalizePath (str "") true = some (str "./") := by
  have hne := Clean_ne_nil p
  have hpos : 0 < (Clean p).length := List.length_pos.mpr hne
  refine ⟨hne, by omega, ?_, by decide⟩
  cases d
  · exact ⟨_, NormalizePath_false p⟩
  · by_cases h : (Clean p).getLast? = some Separator
    · exact ⟨_, NormalizePath_true_root p h⟩
    · exact ⟨_, NormalizePath_true_append p h⟩

theorem Format_tsFileFormat (t : Time) :
    t.Format tsFileFormat =
      appendInt t.Year 4 ++ (appendInt t.Month 2 ++ (appendInt t.Day 2 ++ (45 ::
        (appendInt t.Hour 2 ++ (appendInt t.Minute 2 ++ (appendInt t.Second 2 ++ [])))))) := rfl

theorem yearDay_bounds (a : Int) : 0 ≤ (yearDay a).2 ∧ (yearDay a).2 ≤ 365 := by
  simp only [yearDay]
  omega

theorem yearDay_spec (d0 : Int) :
    ∃ n c q y yd : Int,
      yearDay d0 = (400 * n + 100 * c + 4 * q + y + 1, yd) ∧
      d0 = 146097 * n + 36524 * c + 1461 * q + 365 * y + yd ∧
      0 ≤ c ∧ c ≤ 3 ∧ 0 ≤ q ∧ q ≤ 24 ∧ 0 ≤ y ∧ y ≤ 3 ∧ 0 ≤ yd ∧ yd ≤ 365 ∧
      (y < 3 → yd ≤ 364) ∧ 365 * y + yd ≤ 1460 ∧
      (c < 3 → 1461 * q + 365 * y + yd ≤ 36523) ∧
      36524 * c + 1461 * q + 365 * y + yd ≤ 146096 := by
  refine ⟨d0 / 146097,
    (d0 - 146097 * (d0 / 146097)) / 36524 - (d0 - 146097 * (d0 / 146097)) / 36524 / 4,
    (d0 - 146097 * (d0 / 146097) - 36524 * ((d0 - 146097 * (d0 / 146097)) / 36524 -
      (d0 - 146097 * (d0 / 146097)) / 36524 / 4)) / 1461, ?_, ?_, ?_⟩
  · exact (d0 - 146097 * (d0 / 146097) - 36524 * ((d0 - 146097 * (d0 / 146097)) / 36524 -
      (d0 - 146097 * (d0 / 146097)) / 36524 / 4) - 1461 * ((d0 - 146097 * (d0 / 146097) - 36524 * ((d0 - 146097 * (d0 / 146097)) / 36524 -
      (d0 - 146097 * (d0 / 146097)) / 36524 / 4)) / 1461)) / 365 - (d0 - 146097 * (d0 / 146097) - 36524 * ((d0 - 146097 * (d0 / 146097)) / 36524 -
      (d0 - 146097 * (d0 / 146097)) / 36524 / 4) - 1461 * ((d0 - 146097 * (d0 / 146097) - 36524 * ((d0 - 146097 * (d0 / 146097)) / 36524 -
      (d0 - 146097 * (d0 / 146097)) / 36524 / 4)) / 1461)) / 365 / 4
  · exact (yearDay d0).2
  · simp only [yearDay]
    refine ⟨trivial, ?_⟩
    omega

theorem yearDay_lt (a b : Int) (h : a < b) :
    (yearDay a).1 < (yearDay b).1 ∨
      ((yearDay a).1 = (yearDay b).1 ∧ (yearDay a).2 < (yearDay b).2) := by
  obtain ⟨n, c, q, y, yd, he, hd, h1⟩ := yearDay_spec a
  obtain ⟨n2, c2, q2, y2, yd2, he2, hd2, h2⟩ := yearDay_spec b
  rw [he, he2]
  simp only
  omega

set_option maxRecDepth 1000000 in
theorem monthDay_step : ∀ n, n < 365 → ∀ leap : Bool,
    (monthDay leap n).1 < (monthDay leap (n + 1)).1 ∨
      ((monthDay leap n).1 = (monthDay leap (n + 1)).1 ∧
        (monthDay leap n).2 < (monthDay leap (n + 1)).2) := by
  decide

set_option maxRecDepth 1000000 in
theorem monthDay_bounds : ∀ n, n < 366 → ∀ leap : Bool,
    1 ≤ (monthDay leap n).1 ∧ (monthDay leap n).1 ≤ 13 ∧
      1 ≤ (monthDay leap n).2 ∧ (monthDay leap n).2 ≤ 31 := by
  decide
theorem decimal_small (f u : Nat) (h : u < 10) : decimal (f + 1) u = [48 + u] := by
  simp only [decimal, h, if_true]

theorem decimal_large (f u : Nat) (h : ¬ u < 10) :
    decimal (f + 1) u = decimal f (u / 10) ++ [48 + u % 10] := by
  simp only [decimal, h, if_false]

theorem decimal_two (n : Nat) (h : n < 100) :
    List.replicate (2 - (decimal 20 n).length) 48 ++ decimal 20 n = d2 n := by
  by_cases h10 : n < 10
  · have e1 : n / 10 = 0 := by omega
    have e2 : n % 10 = n := by omega
    rw [show (20 : Nat) = 19 + 1 from rfl, decimal_small _ _ h10]
    simp [d2, e1, e2]
  · have h3 : n / 10 < 10 := by omega
    rw [show (20 : Nat) = 18 + 1 + 1 from rfl, decimal_large _ _ h10, decimal_small _ _ h3]
    simp [d2]

theorem decimal_four (n : Nat) (h : n < 10000) :
    List.replicate (4 - (decimal 20 n).length) 48 ++ decimal 20 n = d4 n := by
  by_cases h10 : n < 10
  · have e1 : n / 1000 = 0 := by omega
    have e2 : n / 100 = 0 := by omega
    have e3 : n / 10 = 0 := by omega
    have e4 : n % 10 = n := by omega
    rw [show (20 : Nat) = 19 + 1 from rfl, decimal_small _ _ h10]
    simp [d4, e1, e2, e3, e4, List.replicate]
  · by_cases h100 : n < 100
    · have e1 : n / 1000 = 0 := by omega
      have e2 : n / 100 = 0 := by omega
      have e3 : n / 10 % 10 = n / 10 := by omega
      have h3 : n / 10 < 10 := by omega
      rw [show (20 : Nat) = 18 + 1 + 1 from rfl, decimal_large _ _ h10, decimal_small _ _ h3]
      simp [d4, e1, e2, e3, List.replicate]
    · by_cases h1000 : n < 1000
      · have e1 : n / 1000 = 0 := by omega
        have e2 : n / 100 % 10 = n / 100 := by omega
        have h3 : ¬ n / 10 < 10 := by omega
        have h4 : n / 10 / 10 < 10 := by omega
        have e5 : n / 10 / 10 = n / 100 := by omega
        rw [show (20 : Nat) = 17 + 1 + 1 + 1 from rfl, decimal_large _ _ h10,
          decimal_large _ _ h3, decimal_small _ _ h4]
        simp [d4, e1, e2, e5, List.replicate]
      · have h3 : ¬ n / 10 < 10 := by omega
        have h4 : ¬ n / 10 / 10 < 10 := by omega
        have h5 : n / 10 / 10 / 10 < 10 := by omega
        have e5 : n / 10 / 10 = n / 100 := by omega
        have e6 : n / 100 / 10 = n / 1000 := by omega
        rw [show (20 : Nat) = 16 + 1 + 1 + 1 + 1 from rfl, decimal_large _ _ h10,
          decimal_large _ _ h3, decimal_large _ _ h4, decimal_small _ _ h5]
        simp [d4, e5, e6, List.replicate]

theorem appendInt_two (n : Nat) (h : n < 100) : appendInt (n : Int) 2 = d2 n := by
  have h1 : ¬ ((n : Int) < 0) := by omega
  simp only [appendInt, h1, if_false, Int.natAbs_ofNat, List.nil_append]
  exact decimal_two n h

theorem appendInt_four (n : Nat) (h : n < 10000) : appendInt (n : Int) 4 = d4 n := by
  have h1 : ¬ ((n : Int) < 0) := by omega
  simp only [appendInt, h1, if_false, Int.natAbs_ofNat, List.nil_append]
  exact decimal_four n h
theorem strLt_cons (a b : Nat) (s t : GoString) :
    strLt (a :: s) (b :: t) = (decide (a < b) || (a == b && strLt s t)) := rfl

theorem strLt_irrefl (s : GoString) : strLt s s = false := by
  induction s with
  | nil => rfl
  | cons a s ih => simp [strLt_cons, ih]

theorem strLt_asymm (s t : GoString) (h : strLt s t = true) : strLt t s = false := by
  induction s generalizing t with
  | nil =>
    cases t with
    | nil => rfl
    | cons b t => rfl
  | cons a s ih =>
    cases t with
    | nil => simp [strLt] at h
    | cons b t =>
      simp only [strLt_cons, Bool.or_eq_true, decide_eq_true_eq, Bool.and_eq_true,
        beq_iff_eq] at h
      rw [strLt_cons]
      rcases h with h | ⟨h1, h2⟩
      · have h3 : ¬ b < a := by omega
        have h4 : ¬ b = a := by omega
        simp [h3, h4]
      · subst h1
        simp [ih t h2]

theorem strLt_append_left (p s t : GoString) : strLt (p ++ s) (p ++ t) = strLt s t := by
  induction p with
  | nil => rfl
  | cons a p ih => simp [strLt_cons, ih]

theorem strLt_d2_lt (a b : Nat) (r s : GoString) (h : a < b) :
    strLt (d2 a ++ r) (d2 b ++ s) = true := by
  simp only [d2, List.cons_append, List.nil_append, strLt_cons, Bool.or_eq_true,
    decide_eq_true_eq, Bool.and_eq_true, beq_iff_eq]
  omega

theorem strLt_d4_lt (a b : Nat) (r s : GoString) (h : a < b) : strLt (d4 a ++ r) (d4 b ++ s) = true := by
  simp only [d4, List.cons_append, List.nil_append, strLt_cons, Bool.or_eq_true,
    decide_eq_true_eq, Bool.and_eq_true, beq_iff_eq]
  omega

theorem monthDay_lt (leap : Bool) (m : Nat) :
    ∀ n, m < n → n ≤ 365 →
      (monthDay leap m).1 < (monthDay leap n).1 ∨
        ((monthDay leap m).1 = (monthDay leap n).1 ∧
          (monthDay leap m).2 < (monthDay leap n).2) := by
  intro n
  induction n with
  | zero => intro h; omega
  | succ n ih =>
    intro hmn hn
    have hstep := monthDay_step n (by omega) leap
    by_cases hm : m = n
    · subst hm; exact hstep
    · have := ih (by omega) (by omega)
      omega
theorem stampOf_lt (Y M D h m s Y2 M2 D2 h2 m2 s2 : Nat) (r r2 : GoString)
    (hlex : Y < Y2 ∨ (Y = Y2 ∧ (M < M2 ∨ (M = M2 ∧ (D < D2 ∨ (D = D2 ∧
      (h < h2 ∨ (h = h2 ∧ (m < m2 ∨ (m = m2 ∧ s < s2)))))))))) :
    strLt (stampOf Y M D h m s ++ r) (stampOf Y2 M2 D2 h2 m2 s2 ++ r2) = true := by
  unfold stampOf
  simp only [List.append_assoc, List.cons_append]
  rcases hlex with h1 | ⟨rfl, hlex⟩
  · exact strLt_d4_lt _ _ _ _ h1
  rw [strLt_append_left]
  rcases hlex with h1 | ⟨rfl, hlex⟩
  · exact strLt_d2_lt _ _ _ _ h1
  rw [strLt_append_left]
  rcases hlex with h1 | ⟨rfl, hlex⟩
  · exact strLt_d2_lt _ _ _ _ h1
  rw [strLt_append_left, strLt_cons]
  simp only [lt_self_iff_false, decide_False, beq_self_eq_true, Bool.true_and, Bool.false_or]
  rcases hlex with h1 | ⟨rfl, hlex⟩
  · exact strLt_d2_lt _ _ _ _ h1
  rw [strLt_append_left]
  rcases hlex with h1 | ⟨rfl, hlex⟩
  · exact strLt_d2_lt _ _ _ _ h1
  rw [strLt_append_left]
  exact strLt_d2_lt s s2 r r2 hlex

theorem Time.yday_le (t : Time) : t.yday ≤ 365 := by
  have := yearDay_bounds (t.abs / 86400)
  unfold Time.yday
  omega

theorem Format_stamp (t : Time) (hy : 0 ≤ t.Year ∧ t.Year ≤ 9999) :
    t.Format tsFileFormat = stamp t := by
  have hb := monthDay_bounds t.yday (by have := t.yday_le; omega) (isLeap t.Year)
  have hY : appendInt t.Year 4 = d4 t.Year.toNat := by
    have := appendInt_four t.Year.toNat (by omega)
    rwa [Int.toNat_of_nonneg hy.1] at this
  have hH : appendInt t.Hour 2 = d2 t.Hour.toNat := by
    have h0 : 0 ≤ t.Hour := by unfold Time.Hour; omega
    have := appendInt_two t.Hour.toNat (by unfold Time.Hour; omega)
    rwa [Int.toNat_of_nonneg h0] at this
  have hM : appendInt t.Minute 2 = d2 t.Minute.toNat := by
    have h0 : 0 ≤ t.Minute := by unfold Time.Minute; omega
    have := appendInt_two t.Minute.toNat (by unfold Time.Minute; omega)
    rwa [Int.toNat_of_nonneg h0] at this
  have hS : appendInt t.Second 2 = d2 t.Second.toNat := by
    have h0 : 0 ≤ t.Second := by unfold Time.Second; omega
    have := appendInt_two t.Second.toNat (by unfold Time.Second; omega)
    rwa [Int.toNat_of_nonneg h0] at this
  have hMo : appendInt t.Month 2 = d2 t.Month := appendInt_two _ (by unfold Time.Month; omega)
  have hD : appendInt t.Day 2 = d2 t.Day := appendInt_two _ (by unfold Time.Day; omega)
  rw [Format_tsFileFormat, hY, hH, hM, hS, hMo, hD, stamp, stampOf, List.append_nil]

theorem stamp_lt (t1 t2 : Time)
    (hy1 : 0 ≤ t1.Year) (hy2 : 0 ≤ t2.Year) (habs : t1.abs < t2.abs) (r r2 : GoString) :
    strLt (stamp t1 ++ r) (stamp t2 ++ r2) = true := by
  unfold stamp
  apply stampOf_lt
  by_cases hday : t1.abs / 86400 = t2.abs / 86400
  · have e1 : t1.Year = t2.Year := by unfold Time.Year; rw [hday]
    have e2 : t1.yday = t2.yday := by unfold Time.yday; rw [hday]
    have e3 : t1.Month = t2.Month := by unfold Time.Month; rw [e1, e2]
    have e4 : t1.Day = t2.Day := by unfold Time.Day; rw [e1, e2]
    refine Or.inr ⟨by rw [e1], Or.inr ⟨e3, Or.inr ⟨e4, ?_⟩⟩⟩
    unfold Time.Hour Time.Minute Time.Second
    omega
  · have hdlt : t1.abs / 86400 < t2.abs / 86400 := by omega
    have b1 := yearDay_bounds (t1.abs / 86400)
    have b2 := yearDay_bounds (t2.abs / 86400)
    rcases yearDay_lt _ _ hdlt with hlt | ⟨heq, hlt⟩
    · left
      have hlt2 : t1.Year < t2.Year := hlt
      omega
    · right
      have e1 : t1.Year = t2.Year := heq
      refine ⟨by rw [e1], ?_⟩
      have hyd : t1.yday < t2.yday := by unfold Time.yday; omega
      have := monthDay_lt (isLeap t1.Year) t1.yday t2.yday hyd t2.yday_le
      unfold Time.Month Time.Day
      rw [← e1]
      rcases this with h1 | ⟨h1, h2⟩
      · exact Or.inl h1
      · exact Or.inr ⟨h1, Or.inl h2⟩
theorem stamp_eq (t1 t2 : Time) (habs : t1.abs = t2.abs) : stamp t1 = stamp t2 := by
  have e1 : t1.Year = t2.Year := by unfold Time.Year; rw [habs]
  have e2 : t1.yday = t2.yday := by unfold Time.yday; rw [habs]
  have e3 : t1.Month = t2.Month := by unfold Time.Month; rw [e1, e2]
  have e4 : t1.Day = t2.Day := by unfold Time.Day; rw [e1, e2]
  have e5 : t1.Hour = t2.Hour := by unfold Time.Hour; rw [habs]
  have e6 : t1.Minute = t2.Minute := by unfold Time.Minute; rw [habs]
  have e7 : t1.Second = t2.Second := by unfold Time.Second; rw [habs]
  unfold stamp
  rw [e1, e3, e4, e5, e6, e7]

theorem WalkFilename_nonzero (h : GoString) (t : Time) (hz : t.IsZero = false) :
    WalkFilename h t =
      (if h ≠ [] then h else str "*") ++ str "-" ++
        (t.Format tsFileFormat ++ str "-fswalker-state.pb") := by
  simp [WalkFilename, hz]

theorem WalkFilename_zero (h : GoString) (t : Time) (hz : t.IsZero = true) :
    WalkFilename h t =
      (if h ≠ [] then h else str "*") ++ str "-" ++ (str "*" ++ str "-fswalker-state.pb") := by
  simp [WalkFilename, hz]

theorem WalkFilename_le_iff_abs (h : GoString) (t1 t2 : Time)
    (hz1 : t1.IsZero = false) (hz2 : t2.IsZero = false)
    (hy1 : 0 ≤ t1.Year ∧ t1.Year ≤ 9999) (hy2 : 0 ≤ t2.Year ∧ t2.Year ≤ 9999) :
    strLe (WalkFilename h t1) (WalkFilename h t2) = true ↔ t1.abs ≤ t2.abs := by
  rw [WalkFilename_nonzero h t1 hz1, WalkFilename_nonzero h t2 hz2, strLe, strLt_append_left,
    Format_stamp t1 hy1, Format_stamp t2 hy2]
  rcases lt_trichotomy t1.abs t2.abs with hlt | heq | hgt
  · have h1 := stamp_lt t1 t2 hy1.1 hy2.1 hlt (str "-fswalker-state.pb")
      (str "-fswalker-state.pb")
    have h2 := strLt_asymm _ _ h1
    simp only [h2, Bool.not_false, true_iff]
    omega
  · rw [stamp_eq t1 t2 heq, strLt_irrefl]
    simp only [Bool.not_false, true_iff]
    omega
  · have h1 := stamp_lt t2 t1 hy2.1 hy1.1 hgt (str "-fswalker-state.pb")
      (str "-fswalker-state.pb")
    simp only [h1, Bool.not_true, Bool.false_eq_true, false_iff]
    omega

/-- Claim C9, amended: for two non-zero times truncated to whole seconds with years in
0..9999, WalkFilename(h, t1) <= WalkFilename(h, t2) in byte-wise lexicographic order if and
only if the local clock of t1 (the seconds of the instant plus the UTC offset in effect) is
not after the local clock of t2. So the names order the times as the instants are ordered
exactly when the instants and the local clocks are in the same order: always when the same
UTC offset is in effect at both, and for t1 not after t2 exactly when the offset did not go
back between them by more than the seconds from t1 to t2. -/
theorem WalkFilename_order_local_clock (h : GoString) (t1 t2 : Time)
    (hz1 : t1.IsZero = false) (hz2 : t2.IsZero = false)
    (hy1 : 0 ≤ t1.Year ∧ t1.Year ≤ 9999) (hy2 : 0 ≤ t2.Year ∧ t2.Year ≤ 9999)
    (hn1 : t1.nsec = 0) (hn2 : t2.nsec = 0) :
    (strLe (WalkFilename h t1) (WalkFilename h t2) = true ↔
        t1.sec + t1.loc.lookup t1.unixSec ≤ t2.sec + t2.loc.lookup t2.unixSec) ∧
      ((t2.Before t1 = false ↔ strLe (WalkFilename h t1) (WalkFilename h t2) = true) ↔
        (t1.sec ≤ t2.sec ↔
          t1.sec + t1.loc.lookup t1.unixSec ≤ t2.sec + t2.loc.lookup t2.unixSec)) ∧
      (t1.loc.lookup t1.unixSec = t2.loc.lookup t2.unixSec →
        (t2.Before t1 = false ↔ strLe (WalkFilename h t1) (WalkFilename h t2) = true)) ∧
      (t1.sec ≤ t2.sec →
        ((t2.Before t1 = false ↔ strLe (WalkFilename h t1) (WalkFilename h t2) = true) ↔
          t1.loc.lookup t1.unixSec - t2.loc.lookup t2.unixSec ≤ t2.sec - t1.sec)) := by
  have hname := WalkFilename_le_iff_abs h t1 t2 hz1 hz2 hy1 hy2
  simp only [Time.abs] at hname
  have hbefore : t2.Before t1 = false ↔ t1.sec ≤ t2.sec := by
    simp only [Time.Before, decide_eq_false_iff_not]
    omega
  rw [hbefore, hname]
  refine ⟨Iff.rfl, Iff.rfl, fun hoff => ?_, fun hle => ?_⟩
  · rw [hoff]
    omega
  · constructor
    · intro hiff
      have := hiff.mp hle
      omega
    · intro hoff
      constructor
      · intro _
        omega
      · intro _
        exact hle

/-- Instances of the order theorem of claim C9 in Europe/Berlin, across changes of the
offset: the second before summer time begins and the second it begins (01:59:59 and
03:00:00 on the local clock), and an instant in July and one in November 2023. In both
pairs the earlier walk has the smaller name. -/
theorem WalkFilename_order_local_clock_witness :
    ((Unix 1679792400 berlin2023).Before (Unix 1679792399 berlin2023) = false ↔
        strLe (WalkFilename (str "testhost") (Unix 1679792399 berlin2023))
          (WalkFilename (str "testhost") (Unix 1679792400 berlin2023)) = true) ∧
      ((Unix 1700000000 berlin2023).Before (Unix 1690000000 berlin2023) = false ↔
        strLe (WalkFilename (str "testhost") (Unix 1690000000 berlin2023))
          (WalkFilename (str "testhost") (Unix 1700000000 berlin2023)) = true) ∧
      (berlin2023.lookup 1679792399 = 3600 ∧ berlin2023.lookup 1679792400 = 7200) ∧
      (berlin2023.lookup 1690000000 = 7200 ∧ berlin2023.lookup 1700000000 = 3600) ∧
      WalkFilename (str "testhost") (Unix 1679792399 berlin2023) =
        str "testhost-20230326-015959-fswalker-state.pb" ∧
      WalkFilename (str "testhost") (Unix 1679792400 berlin2023) =
        str "testhost-20230326-030000-fswalker-state.pb" :=
  ⟨((WalkFilename_order_local_clock (str "testhost") (Unix 1679792399 berlin2023)
      (Unix 1679792400 berlin2023) (by decide) (by decide) (by decide) (by decide)
      (by decide) (by decide)).2.2.2 (by decide)).mpr (by decide),
    ((WalkFilename_order_local_clock (str "testhost") (Unix 1690000000 berlin2023)
      (Unix 1700000000 berlin2023) (by decide) (by decide) (by decide) (by decide)
      (by decide) (by decide)).2.2.2 (by decide)).mpr (by decide),
    by decide, by decide, by decide, by decide⟩

/-- Claim C9 as stated fails in a zone with daylight saving time: in Europe/Berlin the
instant 2023-10-29 00:30:00 UTC (02:30:00 summer time) is before 01:10:00 UTC (02:10:00
standard time), both in the year 2023 and on whole seconds, yet the file name of the
first is greater than the file name of the second. -/
theorem WalkFilename_order_dst :
    (Unix 1698539400 berlin2023).loc = (Unix 1698541800 berlin2023).loc ∧
      (Unix 1698539400 berlin2023).IsZero = false ∧
      (Unix 1698541800 berlin2023).IsZero = false ∧
      (Unix 1698539400 berlin2023).Year = 2023 ∧
      (Unix 1698541800 berlin2023).Year = 2023 ∧
      (Unix 1698539400 berlin2023).nsec = 0 ∧
      (Unix 1698541800 berlin2023).nsec = 0 ∧
      (Unix 1698541800 berlin2023).Before (Unix 1698539400 berlin2023) = false ∧
      WalkFilename (str "host") (Unix 1698539400 berlin2023) =
        str "host-20231029-023000-fswalker-state.pb" ∧
      WalkFilename (str "host") (Unix 1698541800 berlin2023) =
        str "host-20231029-021000-fswalker-state.pb" ∧
      strLe (WalkFilename (str "host") (Unix 1698539400 berlin2023))
        (WalkFilename (str "host") (Unix 1698541800 berlin2023)) = false := by
  decide

/-- Claim C4: WalkFilename builds the name from its parts. For a non-empty hostname h and
a non-zero time t the name is h, "-", the time in the layout tsFileFormat and
"-fswalker-state.pb"; the layout gives the digits YYYYMMDD-HHMMSS when the year is within
0..9999. An empty hostname and a zero time each become "*", independently. -/
theorem WalkFilename_parts (h : GoString) (t : Time) (hh : h ≠ []) (ht : t.IsZero = false) :
    WalkFilename h t = h ++ str "-" ++ t.Format tsFileFormat ++ str "-fswalker-state.pb" ∧
      (0 ≤ t.Year ∧ t.Year ≤ 9999 → t.Format tsFileFormat = stamp t) ∧
      WalkFilename [] t = str "*-" ++ t.Format tsFileFormat ++ str "-fswalker-state.pb" ∧
      (∀ z : Time, z.IsZero = true →
        WalkFilename h z = h ++ str "-*-fswalker-state.pb" ∧
        WalkFilename [] z = str "*-*-fswalker-state.pb") ∧
      WalkFilename h Time.zero = h ++ str "-*-fswalker-state.pb" ∧
      WalkFilename [] Time.zero = str "*-*-fswalker-state.pb" := by
  refine ⟨?_, Format_stamp t, ?_, ?_, ?_, by decide⟩
  · rw [WalkFilename_nonzero h t ht]
    simp [hh]
  · rw [WalkFilename_nonzero [] t ht]
    simp [str]
  · intro z hz
    rw [WalkFilename_zero h z hz, WalkFilename_zero [] z hz]
    simp [hh, str]
  · rw [WalkFilename_zero h Time.zero (by decide)]
    simp [hh, str]

/-- An instance of claim C4: the walk of testhost started 2023-02-21 07:34:12 UTC. -/
theorem WalkFilename_parts_witness :
    WalkFilename (str "testhost") (Unix 1676964852 UTC) =
        str "testhost-20230221-073412-fswalker-state.pb" ∧
      stamp (Unix 1676964852 UTC) = str "20230221-073412" := by
  have h := WalkFilename_parts (str "testhost") (Unix 1676964852 UTC) (by decide) (by decide)
  refine ⟨?_, by decide⟩
  rw [h.1, h.2.1 (by decide)]
  decide

theorem scanLen_cons_plain (c : Nat) (rest : GoString)
    (h1 : c ≠ 42) (h2 : c ≠ 91) (h3 : c ≠ 92) :
    scanLen (c :: rest) false = 1 + scanLen rest false := by
  rw [scanLen.eq_def]
  by_cases h93 : c = 93 <;> simp [h1, h2, h3, h93]

theorem scanLen_star (rest : GoString) : scanLen (42 :: rest) false = 0 := by
  rw [scanLen.eq_def]
  simp

theorem scanLen_literal (h r : GoString) (hm : ∀ c ∈ h, c ≠ 42 ∧ c ≠ 91 ∧ c ≠ 92) :
    scanLen (h ++ 42 :: r) false = h.length := by
  induction h with
  | nil => exact scanLen_star r
  | cons c h ih =>
    obtain ⟨h1, h2, h3⟩ := hm c (by simp)
    have ih2 := ih (fun x hx => hm x (by simp [hx]))
    rw [List.cons_append, scanLen_cons_plain c _ h1 h2 h3, ih2, List.length_cons]
    omega

theorem scanChunk_literal (x r : GoString) (hx : x ≠ [])
    (hm : ∀ c ∈ x, c ≠ 42 ∧ c ≠ 91 ∧ c ≠ 92) :
    scanChunk (x ++ 42 :: r) = (false, x, 42 :: r) := by
  rcases x with _ | ⟨c, x2⟩
  · exact absurd rfl hx
  · obtain ⟨h1, _, _⟩ := hm c (by simp)
    have hlen := scanLen_literal (c :: x2) r hm
    simp only [List.cons_append] at hlen
    simp only [scanChunk, List.cons_append, List.head?_cons, Option.some.injEq, h1,
      decide_False, List.dropWhile_cons, Bool.false_eq_true, if_false, hlen]
    have e1 : List.take (c :: x2).length (c :: (x2 ++ 42 :: r)) = c :: x2 := by
      simp
    have e2 : List.drop (c :: x2).length (c :: (x2 ++ 42 :: r)) = 42 :: r := by
      simp
    rw [e1, e2]

theorem matchChunkLoop_literal (chunk : GoString) (hm : ∀ c ∈ chunk, c ≠ 63 ∧ c ≠ 91 ∧ c ≠ 92) :
    ∀ (fuel : Nat) (s : GoString), chunk.length ≤ fuel →
      matchChunkLoop fuel chunk s true = ChunkResult.failed ∧
      ∀ t, matchChunkLoop fuel chunk s false = ChunkResult.ok t → s = chunk ++ t := by
  induction chunk with
  | nil =>
    intro fuel s _
    cases fuel <;> simp [matchChunkLoop]
  | cons c chunk ih =>
    intro fuel s hf
    obtain ⟨h1, h2, h3⟩ := hm c (by simp)
    rcases fuel with _ | fuel
    · simp at hf
    · have ih2 := ih (fun x hx => hm x (by simp [hx])) fuel
      have hlen : chunk.length ≤ fuel := by simpa using hf
      refine ⟨?_, ?_⟩
      · simp only [matchChunkLoop, Bool.true_or, h1, h2, h3, if_false, Bool.not_true,
          Bool.false_eq_true]
        exact (ih2 s hlen).1
      · intro t ht
        rcases s with _ | ⟨a, s2⟩
        · simp only [matchChunkLoop, List.isEmpty_nil, Bool.or_true, h1, h2, h3, if_false,
            Bool.not_true, Bool.false_eq_true] at ht
          rw [(ih2 [] hlen).1] at ht
          exact absurd ht (by simp)
        · simp only [matchChunkLoop, List.isEmpty_cons, Bool.or_false, h1, h2, h3, if_false,
            Bool.not_false, if_true, List.tail_cons, List.head?_cons] at ht
          by_cases hac : a = c
          · subst hac
            simp only [ne_eq, not_true_eq_false, decide_False] at ht
            rw [(ih2 s2 hlen).2 t ht]
            rfl
          · have hd : decide (some a ≠ some c) = true := by simp [hac]
            rw [hd, (ih2 s2 hlen).1] at ht
            exact absurd ht (by simp)

theorem Match_literal_prefix (x r name : GoString) (hx : x ≠ [])
    (hm : ∀ c ∈ x, c ≠ 42 ∧ c ≠ 63 ∧ c ≠ 91 ∧ c ≠ 92)
    (h : Match (x ++ 42 :: r) name = some true) : ∃ t, name = x ++ t := by
  have hsc := scanChunk_literal x r hx (fun c hc => ⟨(hm c hc).1, (hm c hc).2.2⟩)
  have hlit := matchChunkLoop_literal x (fun c hc => (hm c hc).2) x.length name (le_refl _)
  rcases x with _ | ⟨c, x2⟩
  · exact absurd rfl hx
  · simp only [Match, List.cons_append, List.length_cons] at h
    rw [matchLoop] at h
    simp only [List.cons_append] at hsc
    rw [hsc] at h
    simp only [Bool.false_eq_true, false_and, if_false] at h
    rcases hmc : matchChunk (c :: x2) name with _ | _ | t
    · rw [hmc] at h; simp at h
    · rw [hmc] at h; simp at h
    · exact ⟨t, hlit.2 t hmc⟩

theorem prefix_dash_eq (h h2 x y : GoString) (hd : 45 ∉ h) (hd2 : 45 ∉ h2)
    (he : h ++ 45 :: x = h2 ++ 45 :: y) : h = h2 := by
  induction h generalizing h2 with
  | nil =>
    rcases h2 with _ | ⟨b, h3⟩
    · rfl
    · simp only [List.nil_append, List.cons_append, List.cons.injEq] at he
      exact absurd he.1.symm (fun hb => hd2 (by simp [hb]))
  | cons a h ih =>
    rcases h2 with _ | ⟨b, h3⟩
    · simp only [List.nil_append, List.cons_append, List.cons.injEq] at he
      exact absurd he.1 (fun ha => hd (by simp [ha]))
    · simp only [List.cons_append, List.cons.injEq] at he
      simp only [List.mem_cons, not_or] at hd hd2
      rw [he.1, ih h3 hd.2 hd2.2 he.2]
theorem WalkFilename_pattern (h : GoString) (hh : h ≠ []) :
    WalkFilename h Time.zero = (h ++ [45]) ++ 42 :: str "-fswalker-state.pb" := by
  rw [WalkFilename_zero h Time.zero (by decide)]
  simp [hh, str]

theorem WalkFilename_dash (h : GoString) (t : Time) (hh : h ≠ []) :
    ∃ rest, WalkFilename h t = h ++ 45 :: rest := by
  cases hz : t.IsZero
  · refine ⟨t.Format tsFileFormat ++ str "-fswalker-state.pb", ?_⟩
    rw [WalkFilename_nonzero h t hz]
    simp [hh, str]
  · refine ⟨str "*" ++ str "-fswalker-state.pb", ?_⟩
    rw [WalkFilename_zero h t hz]
    simp [hh, str]

/-- Claim C8 as stated fails for host names that contain a minus sign: the search pattern
of the host web matches a walk file of the host web-01, and the search pattern of the host
web-20230221 matches a walk file that the host web wrote on 2023-02-21. None of these
names has a glob metacharacter or a path separator. -/
theorem Match_other_host :
    Match (WalkFilename (str "web") Time.zero)
        (WalkFilename (str "web-01") (Unix 1676964852 UTC)) = some true ∧
      str "web-01" ≠ str "web" ∧
      Match (WalkFilename (str "web-20230221") Time.zero)
        (WalkFilename (str "web") (Unix 1676964852 UTC)) = some true ∧
      str "web" ≠ str "web-20230221" ∧
      (Unix 1676964852 UTC).IsZero = false ∧
      (∀ c ∈ str "web" ++ str "web-01" ++ str "web-20230221",
        c ≠ 42 ∧ c ≠ 63 ∧ c ≠ 91 ∧ c ≠ 92 ∧ c ≠ Separator) := by
  decide

/-- Claim C8, amended: for a non-empty host name h without glob metacharacters and a
non-empty host name h2, if the search pattern WalkFilename(h, zero time) matches the file
name WalkFilename(h2, t), then that file name begins with h followed by a minus sign; and
h2 = h whenever neither host name contains a minus sign. -/
theorem Match_same_host (h h2 : GoString) (t : Time) (hh : h ≠ []) (hh2 : h2 ≠ [])
    (hm : ∀ c ∈ h, c ≠ 42 ∧ c ≠ 63 ∧ c ≠ 91 ∧ c ≠ 92)
    (hmatch : Match (WalkFilename h Time.zero) (WalkFilename h2 t) = some true) :
    (∃ rest, WalkFilename h2 t = h ++ 45 :: rest) ∧ (45 ∉ h → 45 ∉ h2 → h2 = h) := by
  rw [WalkFilename_pattern h hh] at hmatch
  have hm2 : ∀ c ∈ h ++ [45], c ≠ 42 ∧ c ≠ 63 ∧ c ≠ 91 ∧ c ≠ 92 := by
    intro c hc
    rcases List.mem_append.mp hc with h1 | h1
    · exact hm c h1
    · simp only [List.mem_singleton] at h1
      subst h1
      decide
  obtain ⟨rest, hrest⟩ := Match_literal_prefix (h ++ [45]) _ _ (by simp) hm2 hmatch
  refine ⟨⟨rest, by rw [hrest]; simp⟩, fun hd hd2 => ?_⟩
  obtain ⟨rest2, hrest2⟩ := WalkFilename_dash h2 t hh2
  rw [hrest2] at hrest
  have he : h2 ++ 45 :: rest2 = h ++ 45 :: rest := by
    rw [hrest]; simp
  exact prefix_dash_eq h2 h rest2 rest hd2 hd he

/-- An instance of the theorem of claim C8: the search pattern of testhost matches a walk
file of testhost, whose name begins with testhost and a minus sign. -/
theorem Match_same_host_witness :
    Match (WalkFilename (str "testhost") Time.zero)
        (WalkFilename (str "testhost") (Unix 1676964852 UTC)) = some true ∧
      ∃ rest, WalkFilename (str "testhost") (Unix 1676964852 UTC) =
        str "testhost" ++ 45 :: rest :=
  ⟨by decide, (Match_same_host (str "testhost") (str "testhost") (Unix 1676964852 UTC)
    (by decide) (by decide) (by decide) (by decide)).1⟩

theorem decimal_digits : ∀ (fuel u : Nat), ∀ c ∈ decimal fuel u, 48 ≤ c ∧ c ≤ 57 := by
  intro fuel
  induction fuel with
  | zero => intro u c hc; simp [decimal] at hc
  | succ fuel ih =>
    intro u c hc
    by_cases hu : u < 10
    · rw [decimal_small _ _ hu] at hc
      simp only [List.mem_singleton] at hc
      omega
    · rw [decimal_large _ _ hu] at hc
      rcases List.mem_append.mp hc with h | h
      · exact ih _ c h
      · simp only [List.mem_singleton] at h
        omega

theorem appendInt_chars (x : Int) (w : Nat) :
    ∀ c ∈ appendInt x w, c = 45 ∨ (48 ≤ c ∧ c ≤ 57) := by
  intro c hc
  unfold appendInt at hc
  simp only [List.append_assoc, List.mem_append] at hc
  rcases hc with h | h | h
  · split at h
    · simp only [List.mem_singleton] at h
      exact Or.inl h
    · simp at h
  · have := List.eq_of_mem_replicate h
    omega
  · exact Or.inr (decimal_digits _ _ c h)

theorem Format_ts_chars (t : Time) :
    ∀ c ∈ t.Format tsFileFormat, c = 45 ∨ (48 ≤ c ∧ c ≤ 57) := by
  intro c hc
  rw [Format_tsFileFormat] at hc
  simp only [List.mem_append, List.mem_cons, List.not_mem_nil, or_false] at hc
  rcases hc with h | h | h | h | h | h | h
  · exact appendInt_chars _ _ c h
  · exact appendInt_chars _ _ c h
  · exact appendInt_chars _ _ c h
  · exact Or.inl h
  · exact appendInt_chars _ _ c h
  · exact appendInt_chars _ _ c h
  · exact appendInt_chars _ _ c h

theorem matchChunkLoop_literal_ok (chunk : GoString)
    (hm : ∀ c ∈ chunk, c ≠ 63 ∧ c ≠ 91 ∧ c ≠ 92) :
    ∀ (fuel : Nat) (t : GoString), chunk.length ≤ fuel →
      matchChunkLoop fuel chunk (chunk ++ t) false = ChunkResult.ok t := by
  induction chunk with
  | nil =>
    intro fuel t _
    cases fuel <;> simp [matchChunkLoop]
  | cons c chunk ih =>
    intro fuel t hf
    obtain ⟨h1, h2, h3⟩ := hm c (by simp)
    rcases fuel with _ | fuel
    · simp at hf
    · have hlen : chunk.length ≤ fuel := by simpa using hf
      simp only [List.cons_append, matchChunkLoop, List.isEmpty_cons, Bool.or_false, h1, h2, h3,
        if_false, Bool.not_false, if_true, List.tail_cons, List.head?_cons, ne_eq,
        not_true_eq_false, decide_False]
      exact ih (fun x hx => hm x (by simp [hx])) fuel t hlen

theorem matchChunkLoop_literal_not_bad (chunk : GoString)
    (hm : ∀ c ∈ chunk, c ≠ 63 ∧ c ≠ 91 ∧ c ≠ 92) :
    ∀ (fuel : Nat) (s : GoString) (failed : Bool), chunk.length ≤ fuel →
      matchChunkLoop fuel chunk s failed ≠ ChunkResult.bad := by
  induction chunk with
  | nil =>
    intro fuel s failed _
    cases fuel <;> cases failed <;> simp [matchChunkLoop]
  | cons c chunk ih =>
    intro fuel s failed hf
    obtain ⟨h1, h2, h3⟩ := hm c (by simp)
    rcases fuel with _ | fuel
    · simp at hf
    · have hlen : chunk.length ≤ fuel := by simpa using hf
      have ih2 := ih (fun x hx => hm x (by simp [hx])) fuel
      simp only [matchChunkLoop, h1, h2, h3, if_false]
      split
      · exact ih2 _ _ hlen
      · exact ih2 _ _ hlen

theorem starLoop_literal (chunk : GoString) (hm : ∀ c ∈ chunk, c ≠ 63 ∧ c ≠ 91 ∧ c ≠ 92)
    (x : GoString) (hx : x ≠ []) (hs : Separator ∉ x) :
    starLoop chunk true (x ++ chunk) = ChunkResult.ok [] := by
  induction x with
  | nil => exact absurd rfl hx
  | cons a x ih =>
    simp only [List.mem_cons, not_or] at hs
    have ha : a ≠ Separator := fun h => hs.1 h.symm
    rw [List.cons_append, starLoop, if_neg ha]
    rcases x with _ | ⟨b, x2⟩
    · have hok := matchChunkLoop_literal_ok chunk hm chunk.length [] (le_refl _)
      rw [List.append_nil] at hok
      simp only [List.nil_append, matchChunk, hok]
      simp
    · have ih2 := ih (by simp) hs.2
      rcases hmc : matchChunk chunk (b :: x2 ++ chunk) with _ | _ | t
      · exact absurd hmc (matchChunkLoop_literal_not_bad chunk hm _ _ _ (le_refl _))
      · simp only
        exact ih2
      · have hpre := (matchChunkLoop_literal chunk hm chunk.length (b :: x2 ++ chunk)
          (le_refl _)).2 t hmc
        have hlen := congrArg List.length hpre
        simp only [List.length_append, List.length_cons] at hlen
        have ht : t ≠ [] := by
          intro h
          rw [h] at hlen
          simp at hlen
        simp only [ht, ne_eq, not_false_eq_true, and_self, if_true]
        exact ih2

/-- The search pattern of a host matches every walk file name of that host: for a
non-empty host name h without glob metacharacters and every time t, the pattern
WalkFilename(h, zero time) matches WalkFilename(h, t). -/
theorem Match_own_host (h : GoString) (t : Time) (hh : h ≠ [])
    (hm : ∀ c ∈ h, c ≠ 42 ∧ c ≠ 63 ∧ c ≠ 91 ∧ c ≠ 92) :
    Match (WalkFilename h Time.zero) (WalkFilename h t) = some true := by
  have hsuf : ∀ c ∈ str "-fswalker-state.pb", c ≠ 63 ∧ c ≠ 91 ∧ c ≠ 92 := by decide
  have hname : ∃ x, x ≠ [] ∧ Separator ∉ x ∧
      WalkFilename h t = (h ++ [45]) ++ (x ++ str "-fswalker-state.pb") := by
    cases hz : t.IsZero
    · refine ⟨t.Format tsFileFormat, ?_, ?_, ?_⟩
      · rw [Format_tsFileFormat]
        simp
      · intro hmem
        rcases Format_ts_chars t _ hmem with h1 | h1
        · exact absurd h1 (by decide)
        · simp only [Separator] at h1
          omega
      · rw [WalkFilename_nonzero h t hz]
        simp [hh, str]
    · refine ⟨str "*", by decide, by decide, ?_⟩
      rw [WalkFilename_zero h t hz]
      simp [hh, str]
  obtain ⟨x, hx1, hx2, hx3⟩ := hname
  have hm2 : ∀ c ∈ h ++ [45], c ≠ 42 ∧ c ≠ 63 ∧ c ≠ 91 ∧ c ≠ 92 := by
    intro c hc
    rcases List.mem_append.mp hc with h1 | h1
    · exact hm c h1
    · simp only [List.mem_singleton] at h1
      subst h1
      decide
  have hsc := scanChunk_literal (h ++ [45]) (str "-fswalker-state.pb") (by simp)
    (fun c hc => ⟨(hm2 c hc).1, (hm2 c hc).2.2⟩)
  have hok := matchChunkLoop_literal_ok (h ++ [45]) (fun c hc => (hm2 c hc).2)
    (h ++ [45]).length (x ++ str "-fswalker-state.pb") (le_refl _)
  have hsc2 : scanChunk (42 :: str "-fswalker-state.pb") =
      (true, str "-fswalker-state.pb", []) := by decide
  have hstar := starLoop_literal (str "-fswalker-state.pb") hsuf x hx1 hx2
  rw [WalkFilename_pattern h hh, hx3]
  rcases hcons : h ++ [45] with _ | ⟨c, h2⟩
  · simp at hcons
  · rw [hcons] at hsc hok
    simp only [Match, List.cons_append, List.length_cons, List.length_append]
    rw [matchLoop]
    simp only [List.cons_append] at hsc
    rw [hsc]
    simp only [Bool.false_eq_true, false_and, if_false, matchChunk]
    simp only [List.cons_append] at hok
    rw [hok]
    simp only [ne_eq, reduceCtorEq, not_false_eq_true, or_true, if_true]
    have hfuel : h2.length + ((str "-fswalker-state.pb").length + 1) =
        (h2.length + 18) + 1 := by
      simp [str]
    rw [hfuel, matchLoop, hsc2]
    simp only [true_and]
    have hne : str "-fswalker-state.pb" ≠ [] := by decide
    rw [if_neg hne]
    simp only [if_true, hstar]
    have hfin : matchLoop (h2.length + 18) [] [] = some true := by
      simp [matchLoop]
    rcases hmc : matchChunk (str "-fswalker-state.pb") (x ++ str "-fswalker-state.pb")
      with _ | _ | t2
    · exact absurd hmc (matchChunkLoop_literal_not_bad _ hsuf _ _ _ (le_refl _))
    · simp only [decide_True, hstar, hfin]
    · by_cases ht2 : t2 = []
      · subst ht2
        simp [matchLoop]
      · simp only [ht2, if_false, decide_True, hstar, hfin]
        simp

theorem updateStep_spec {W : Type} (f : Flags) (w : World W) (after : W) :
    (Event.updateReviewProto f.reviewFile ∈ (updateStep f w after).trace ↔
        f.updateReview = true ∧ askUpdateReviews w.unicode w.answer = true) ∧
      (Event.prompt ∈ (updateStep f w after).trace ↔ f.updateReview = true) ∧
      (¬ (f.updateReview = true ∧ askUpdateReviews w.unicode w.answer = true) →
        (updateStep f w after).exit = Exit.returned ∧
          Event.notUpdating ∈ (updateStep f w after).trace) := by
  unfold updateStep
  cases f.updateReview <;> cases askUpdateReviews w.unicode w.answer <;>
    cases w.UpdateReviewProto after f.reviewFile <;> simp

theorem reportStep_spec {W : Type} (f : Flags) (w : World W) (before : Option W) (after : W) :
    (Event.updateReviewProto f.reviewFile ∈ (reportStep f w before after).trace ↔
        Event.metrics ∈ (reportStep f w before after).trace ∧
          f.updateReview = true ∧ askUpdateReviews w.unicode w.answer = true) ∧
      (Event.prompt ∈ (reportStep f w before after).trace ↔
        Event.metrics ∈ (reportStep f w before after).trace ∧ f.updateReview = true) ∧
      (Event.metrics ∈ (reportStep f w before after).trace →
        ¬ (f.updateReview = true ∧ askUpdateReviews w.unicode w.answer = true) →
        (reportStep f w before after).exit = Exit.returned ∧
          Event.notUpdating ∈ (reportStep f w before after).trace) := by
  obtain ⟨h1, h2, h3⟩ := updateStep_spec f w after
  unfold reportStep
  split_ifs
  · simp
  · simp
  · simp
  · simp only [List.mem_cons, true_or, or_true, true_and, false_or]
    simp only [reduceCtorEq, false_or]
    exact ⟨h1, h2, fun _ hn => h3 hn⟩

theorem walksByLatest_reads {W : Type} (w : World W) (a b c : GoString) :
    ∀ e ∈ (walksByLatest w a b c).1, e.isRead = true := by
  unfold walksByLatest
  cases w.ReadLastGoodWalk a b with
  | none => simp [Event.isRead]
  | some before => cases w.ReadLatestWalk a c <;> simp [Event.isRead]

theorem walksByFiles_reads {W : Type} (w : World W) (a b : GoString) :
    ∀ e ∈ (walksByFiles w a b).1, e.isRead = true := by
  unfold walksByFiles
  cases w.ReadWalk b with
  | none => simp [Event.isRead]
  | some after =>
    by_cases ha : a = []
    · simp [ha, Event.isRead]
    · cases w.ReadWalk a <;> simp [ha, Event.isRead]
theorem main_cases {W : Type} (f : Flags) (w : World W) :
    (main f w).trace = [] ∧ (∃ c, (main f w).exit = Exit.fatal c) ∨
      (∃ pre : List Event, (∀ e ∈ pre, e.isRead = true) ∧
        (main f w = ⟨pre, Exit.fatal Fatal.walks⟩ ∨
          ∃ before after, main f w =
            ⟨pre ++ (reportStep f w before after).trace,
              (reportStep f w before after).exit⟩)) := by
  have key : ∀ r : List Event × Option (Option W × W), (∀ e ∈ r.1, e.isRead = true) →
      ∃ pre : List Event, (∀ e ∈ pre, e.isRead = true) ∧
        (((match r.2 with
            | none => (⟨r.1, Exit.fatal Fatal.walks⟩ : Run)
            | some (before, after) =>
              ⟨r.1 ++ (reportStep f w before after).trace,
                (reportStep f w before after).exit⟩) = ⟨pre, Exit.fatal Fatal.walks⟩) ∨
          ∃ before after, (match r.2 with
            | none => (⟨r.1, Exit.fatal Fatal.walks⟩ : Run)
            | some (before, after) =>
              ⟨r.1 ++ (reportStep f w before after).trace,
                (reportStep f w before after).exit⟩) =
            ⟨pre ++ (reportStep f w before after).trace,
              (reportStep f w before after).exit⟩) := by
    intro r hr
    obtain ⟨ev, res⟩ := r
    rcases res with _ | ⟨before, after⟩
    · exact ⟨ev, hr, Or.inl rfl⟩
    · exact ⟨ev, hr, Or.inr ⟨before, after, rfl⟩⟩
  unfold main
  split_ifs
  · exact Or.inl ⟨rfl, _, rfl⟩
  · exact Or.inl ⟨rfl, _, rfl⟩
  · exact Or.inl ⟨rfl, _, rfl⟩
  · exact Or.inr (key _ (walksByLatest_reads w _ _ _))
  · exact Or.inr (key _ (walksByFiles_reads w _ _))
  · exact Or.inl ⟨rfl, _, rfl⟩
theorem not_read_mem_append (pre rest : List Event) (e : Event)
    (hpre : ∀ x ∈ pre, x.isRead = true) (he : e.isRead = false) :
    e ∈ pre ++ rest ↔ e ∈ rest := by
  rw [List.mem_append]
  constructor
  · rintro (h | h)
    · have := hpre e h
      rw [he] at this
      exact absurd this (by simp)
    · exact h
  · exact Or.inr

/-- Claim C5: the Reviews store is updated only after explicit confirmation. In every run
of main, UpdateReviewProto is called if and only if the run gets as far as the update step
(the metrics were printed), the update-review flag is set and the answer read, trimmed and
lower-cased, is exactly "y". The question is asked if and only if the run gets that far
and the flag is set. For every other answer, or with the flag unset, the run prints that
it does not update and returns without error. The answers "", "n" and "yes" decline; "y"
and "Y" confirm. -/
theorem main_update_only_confirmed {W : Type} (f : Flags) (w : World W) :
    (Event.updateReviewProto f.reviewFile ∈ (main f w).trace ↔
        Event.metrics ∈ (main f w).trace ∧
          f.updateReview = true ∧ askUpdateReviews w.unicode w.answer = true) ∧
      (Event.prompt ∈ (main f w).trace ↔
        Event.metrics ∈ (main f w).trace ∧ f.updateReview = true) ∧
      (Event.metrics ∈ (main f w).trace →
        ¬ (f.updateReview = true ∧ askUpdateReviews w.unicode w.answer = true) →
        (main f w).exit = Exit.returned ∧ Event.notUpdating ∈ (main f w).trace) ∧
      (askUpdateReviews w.unicode w.answer = true ↔
        ToLower w.unicode (TrimSpace w.unicode w.answer) = str "y") ∧
      askUpdateReviews w.unicode (str "") = false ∧
      askUpdateReviews w.unicode (str "n") = false ∧
      askUpdateReviews w.unicode (str "yes") = false ∧
      askUpdateReviews w.unicode (str "y") = true ∧
      askUpdateReviews w.unicode (str "Y") = true := by
  refine ⟨?_, ?_, ?_, by simp [askUpdateReviews], rfl, rfl, rfl, rfl, rfl⟩
  · rcases main_cases f w with ⟨h1, _⟩ | ⟨pre, hpre, h | ⟨before, after, h⟩⟩
    · simp [h1]
    · rw [h]
      constructor
      · intro hm
        have := hpre _ hm
        simp [Event.isRead] at this
      · rintro ⟨hm, _⟩
        have := hpre _ hm
        simp [Event.isRead] at this
    · rw [h]
      simp only [not_read_mem_append pre _ _ hpre (rfl : (Event.updateReviewProto
        f.reviewFile).isRead = false),
        not_read_mem_append pre _ _ hpre (rfl : Event.metrics.isRead = false)]
      exact (reportStep_spec f w before after).1
  · rcases main_cases f w with ⟨h1, _⟩ | ⟨pre, hpre, h | ⟨before, after, h⟩⟩
    · simp [h1]
    · rw [h]
      constructor
      · intro hm
        have := hpre _ hm
        simp [Event.isRead] at this
      · rintro ⟨hm, _⟩
        have := hpre _ hm
        simp [Event.isRead] at this
    · rw [h]
      simp only [not_read_mem_append pre _ _ hpre (rfl : Event.prompt.isRead = false),
        not_read_mem_append pre _ _ hpre (rfl : Event.metrics.isRead = false)]
      exact (reportStep_spec f w before after).2.1
  · rcases main_cases f w with ⟨h1, _⟩ | ⟨pre, hpre, h | ⟨before, after, h⟩⟩
    · simp [h1]
    · rw [h]
      intro hm
      have := hpre _ hm
      simp [Event.isRead] at this
    · rw [h]
      simp only [not_read_mem_append pre _ _ hpre (rfl : Event.notUpdating.isRead = false),
        not_read_mem_append pre _ _ hpre (rfl : Event.metrics.isRead = false)]
      exact (reportStep_spec f w before after).2.2

/-- Claim C6: baseline mode and explicit-file mode are mutually exclusive. Once the
configuration is loaded, main aborts before any walk is read when the three baseline
inputs are all non-empty and a before-file or after-file is given; it starts baseline mode
(the first step reads the last known good walk) exactly when the three baseline inputs are
non-empty and both file inputs are empty; it starts explicit-file mode (the first step
reads the after-file) exactly when the baseline inputs are not all non-empty and the
after-file is non-empty; every remaining combination aborts before any walk is read. -/
theorem main_mode_selection {W : Type} (f : Flags) (w : World W)
    (hc : f.configFile ≠ []) (hr : w.ReporterFromConfigFile f.configFile f.verbose = true) :
    ((f.hostname ≠ [] ∧ f.reviewFile ≠ [] ∧ f.walkPath ≠ []) ∧
        (f.beforeFile ≠ [] ∨ f.afterFile ≠ []) →
        main f w = ⟨[], Exit.fatal Fatal.mutuallyExclusive⟩) ∧
      ((main f w).trace.head? = some (Event.readLastGoodWalk f.hostname f.reviewFile) ↔
        (f.hostname ≠ [] ∧ f.reviewFile ≠ [] ∧ f.walkPath ≠ []) ∧
          f.beforeFile = [] ∧ f.afterFile = []) ∧
      ((main f w).trace.head? = some (Event.readWalk f.afterFile) ↔
        ¬ (f.hostname ≠ [] ∧ f.reviewFile ≠ [] ∧ f.walkPath ≠ []) ∧ f.afterFile ≠ []) ∧
      (¬ (f.hostname ≠ [] ∧ f.reviewFile ≠ [] ∧ f.walkPath ≠ []) ∧ f.afterFile = [] →
        main f w = ⟨[], Exit.fatal Fatal.modeMissing⟩) := by
  have hlatest : ∀ r : Run, (∃ tl e, r = ⟨Event.readLastGoodWalk f.hostname f.reviewFile :: tl, e⟩) →
      r.trace.head? = some (Event.readLastGoodWalk f.hostname f.reviewFile) ∧
        r.trace.head? ≠ some (Event.readWalk f.afterFile) := by
    rintro r ⟨tl, e, rfl⟩
    simp
  have hfiles : ∀ r : Run, (∃ tl e, r = ⟨Event.readWalk f.afterFile :: tl, e⟩) →
      r.trace.head? = some (Event.readWalk f.afterFile) ∧
        r.trace.head? ≠ some (Event.readLastGoodWalk f.hostname f.reviewFile) := by
    rintro r ⟨tl, e, rfl⟩
    simp
  by_cases h3 : f.hostname ≠ [] ∧ f.reviewFile ≠ [] ∧ f.walkPath ≠ []
  · by_cases hf : f.afterFile ≠ [] ∨ f.beforeFile ≠ []
    · have hm : main f w = ⟨[], Exit.fatal Fatal.mutuallyExclusive⟩ := by
        simp only [main, if_neg hc, hr, Bool.not_true, Bool.false_eq_true, if_false,
          if_pos h3, if_pos hf]
      rw [hm]
      refine ⟨fun _ => rfl, ?_, ?_, ?_⟩
      · simp only [List.head?_nil, false_iff, reduceCtorEq]
        rintro ⟨_, hb, ha⟩
        rcases hf with h | h
        · exact h ha
        · exact h hb
      · simp [h3]
      · intro h; exact absurd h3 h.1
    · have hb : f.beforeFile = [] := by
        by_contra h; exact hf (Or.inr h)
      have ha : f.afterFile = [] := by
        by_contra h; exact hf (Or.inl h)
      have hm : ∃ tl e, main f w =
          ⟨Event.readLastGoodWalk f.hostname f.reviewFile :: tl, e⟩ := by
        simp only [main, if_neg hc, hr, Bool.not_true, Bool.false_eq_true, if_false,
          if_pos h3, if_neg hf, walksByLatest]
        cases w.ReadLastGoodWalk f.hostname f.reviewFile with
        | none => exact ⟨_, _, rfl⟩
        | some before =>
          cases w.ReadLatestWalk f.hostname f.walkPath with
          | none => exact ⟨_, _, rfl⟩
          | some after => exact ⟨_, _, rfl⟩
      obtain ⟨e1, e2⟩ := hlatest _ hm
      refine ⟨?_, ?_, ?_, ?_⟩
      · rintro ⟨_, h | h⟩
        · exact absurd hb h
        · exact absurd ha h
      · simp [e1, h3, hb, ha]
      · simp [e2, h3]
      · intro h; exact absurd h3 h.1
  · by_cases ha : f.afterFile ≠ []
    · have hm : ∃ tl e, main f w = ⟨Event.readWalk f.afterFile :: tl, e⟩ := by
        simp only [main, if_neg hc, hr, Bool.not_true, Bool.false_eq_true, if_false,
          if_neg h3, if_pos ha, walksByFiles]
        cases w.ReadWalk f.afterFile with
        | none => exact ⟨_, _, rfl⟩
        | some after =>
          by_cases hb : f.beforeFile ≠ []
          · simp only [if_pos hb]
            cases w.ReadWalk f.beforeFile with
            | none => exact ⟨_, _, rfl⟩
            | some before => exact ⟨_, _, rfl⟩
          · simp only [if_neg hb]
            exact ⟨_, _, rfl⟩
      obtain ⟨e1, e2⟩ := hfiles _ hm
      refine ⟨?_, ?_, ?_, ?_⟩
      · intro h; exact absurd h.1 h3
      · simp [e2, h3]
      · simp [e1, h3, ha]
      · intro h; exact absurd h.2 ha
    · have hm : main f w = ⟨[], Exit.fatal Fatal.modeMissing⟩ := by
        simp only [main, if_neg hc, hr, Bool.not_true, Bool.false_eq_true, if_false,
          if_neg h3, if_neg ha]
      rw [hm]
      refine ⟨?_, ?_, ?_, fun _ => rfl⟩
      · intro h; exact absurd h.1 h3
      · simp [h3]
      · simp [ha]

/-- An instance of claim C6: with the baseline flags and no file flags, the first step of
main reads the last known good walk of the host. -/
theorem main_mode_selection_witness :
    (main baselineFlags okWorld).trace.head? =
      some (Event.readLastGoodWalk baselineFlags.hostname baselineFlags.reviewFile) :=
  (main_mode_selection baselineFlags okWorld (by decide) (by decide)).2.1.mpr (by decide)
/-- Instances of claim C5 in baseline mode with every collaborator succeeding: with the
flag set and the answer "y" the review is updated after the question; with the answer "n"
the question is asked and nothing is updated; with the flag unset nothing is asked. -/
theorem main_update_only_confirmed_witness :
    Event.updateReviewProto baselineFlags.reviewFile ∈ (main baselineFlags okWorld).trace ∧
      main baselineFlags okWorld =
        ⟨[Event.readLastGoodWalk (str "testhost") (str "/reviews.asciipb"),
          Event.readLatestWalk (str "testhost") (str "/walks"), Event.compare, Event.metrics,
          Event.prompt, Event.updateReviewProto (str "/reviews.asciipb")], Exit.returned⟩ ∧
      main baselineFlags { okWorld with answer := str "n" } =
        ⟨[Event.readLastGoodWalk (str "testhost") (str "/reviews.asciipb"),
          Event.readLatestWalk (str "testhost") (str "/walks"), Event.compare, Event.metrics,
          Event.prompt, Event.notUpdating], Exit.returned⟩ ∧
      main { baselineFlags with updateReview := false } okWorld =
        ⟨[Event.readLastGoodWalk (str "testhost") (str "/reviews.asciipb"),
          Event.readLatestWalk (str "testhost") (str "/walks"), Event.compare, Event.metrics,
          Event.notUpdating], Exit.returned⟩ :=
  ⟨(main_update_only_confirmed baselineFlags okWorld).1.mpr
    ⟨by decide, by decide, by decide⟩, by decide, by decide, by decide⟩

theorem ReplaceAll_not_mem (s : GoString) (old new : Nat) (h : new ≠ old) :
    old ∉ ReplaceAll s old new := by
  unfold ReplaceAll
  intro hm
  obtain ⟨c, _, hc⟩ := List.mem_map.mp hm
  by_cases hco : c = old
  · rw [if_pos hco] at hc; exact h hc
  · rw [if_neg hco] at hc; exact hco hc

theorem ReplaceAll_other (s : GoString) (old new x : Nat) (hx : x ∉ s) (hn : x ≠ new) :
    x ∉ ReplaceAll s old new := by
  unfold ReplaceAll
  intro hm
  obtain ⟨c, hcs, hc⟩ := List.mem_map.mp hm
  by_cases hco : c = old
  · rw [if_pos hco] at hc; exact hn hc.symm
  · rw [if_neg hco] at hc; rw [hc] at hcs; exact hx hcs

/-- Claim C7 fails on the code: writeTextProto replaces the angle brackets everywhere in
the marshalled text, inside string literals too. Whatever the marshaller, the written text
has no angle bracket; and for the report configuration with the excluded prefix "/a<b"
the written text is that of the configuration with the prefix "/a\x7bb", so that no
decoder returns both messages from what was written for them. -/
theorem writeTextProto_alters_strings :
    (∀ (M : Type) (Marshal : M → Option GoString) (pb : M) (b : GoString),
        writeTextProto Marshal pb = some b → 60 ∉ b ∧ 62 ∉ b) ∧
      marshalReportConfig ⟨1, [str "/a<b"]⟩ = some (str "version:1 exclude_pfx:\"/a<b\"") ∧
      writeTextProto marshalReportConfig ⟨1, [str "/a<b"]⟩ =
        some (str "version:1 exclude_pfx:\"/a\x7bb\"") ∧
      writeTextProto marshalReportConfig ⟨1, [str "/a<b"]⟩ =
        writeTextProto marshalReportConfig ⟨1, [str "/a\x7bb"]⟩ ∧
      (∀ (Unmarshal : GoString → Option ReportConfig) (b1 b2 : GoString),
        writeTextProto marshalReportConfig ⟨1, [str "/a<b"]⟩ = some b1 →
        writeTextProto marshalReportConfig ⟨1, [str "/a\x7bb"]⟩ = some b2 →
        readTextProto Unmarshal b2 = some ⟨1, [str "/a\x7bb"]⟩ →
        readTextProto Unmarshal b1 ≠ some ⟨1, [str "/a<b"]⟩) := by
  refine ⟨?_, by decide, by decide, by decide, ?_⟩
  · intro M Marshal pb b h
    unfold writeTextProto at h
    cases hm : Marshal pb with
    | none => rw [hm] at h; exact absurd h (by simp)
    | some blob =>
      rw [hm] at h
      simp only [Option.some.injEq] at h
      subst h
      exact ⟨ReplaceAll_other _ 62 125 60 (ReplaceAll_not_mem blob 60 123 (by decide))
        (by decide), ReplaceAll_not_mem _ 62 125 (by decide)⟩
  · intro Unmarshal b1 b2 h1 h2 hr
    have he : b1 = b2 := by
      have h12 : writeTextProto marshalReportConfig ⟨1, [str "/a<b"]⟩ =
          writeTextProto marshalReportConfig ⟨1, [str "/a\x7bb"]⟩ := by decide
      rw [h1, h2] at h12
      exact Option.some.inj h12
    rw [he, hr]
    decide

theorem Clean_cleantests : ∀ row ∈ cleantests, Clean (str row.1) = str row.2 := by
  decide

theorem Match_matchTests : ∀ row ∈ matchTests, Match (str row.1) (str row.2.1) = row.2.2 := by
  decide

theorem Format_formatTests :
    ∀ row ∈ formatTests, (Unix row.1 UTC).Format tsFileFormat = str row.2 := by
  decide

end FSWalker
